import Mathlib

/-!
Verification development for the schedule extraction & reconciliation engine
(repository `parser`). The definitions below form a shallow embedding of the
Python sources, faithful to:
  `src/src/schedule_parser/utils.py`  (text utilities, cell parser, calendar),
  `src/src/schedule_parser/parser.py` (HTML table extractor, schedule builder,
                                       reconciliation engine),
  `src/src/schedule_parser/db.py`     (storage operations),
  `src/models.py`                     (data model, change-detection equality).

Python `date` objects are embedded as proleptic-Gregorian triples `PyDate`
with `toordinal` exactly as CPython's `date.toordinal` (ordinal 1 =
0001-01-01); `date - date` is ordinal subtraction and `date + timedelta(days=n)`
is ordinal addition, so date arithmetic appears as `Int` arithmetic on
ordinals.  Python `//` and `%` are floor division: `Int.fdiv` / `Int.fmod`.
-/

namespace SchedParse

/-! ## Python string primitives

Python's `str.strip()` and the regex class `\s` (for `str` patterns over the
character repertoire actually reaching this code) match the whitespace
characters below.  `normalize_text` first rewrites `\xa0` to a plain space and
deletes `​` (which is *not* Python whitespace), so by the time `\s` runs
only these characters can occur as whitespace. -/

def isPySpace (c : Char) : Bool :=
  c = ' ' || c = '\t' || c = '\n' || c = '\r' || c = '\x0b' || c = '\x0c' || c = '\xa0'

def pyStripL (cs : List Char) : List Char :=
  cs.dropWhile isPySpace

def pyStripList (cs : List Char) : List Char :=
  ((cs.dropWhile isPySpace).reverse.dropWhile isPySpace).reverse

/-- Python `str.strip()` with no argument. -/
def pyStrip (s : String) : String :=
  ⟨pyStripList s.data⟩

/-- Lower-casing for the alphabets appearing in this code base:
ASCII letters and Russian Cyrillic (А-Я plus Ё). -/
def pyLowerChar (c : Char) : Char :=
  let n := c.toNat
  if 65 ≤ n ∧ n ≤ 90 then Char.ofNat (n + 32)          -- A-Z
  else if 0x410 ≤ n ∧ n ≤ 0x42F then Char.ofNat (n + 0x20)  -- А-Я
  else if n = 0x401 then Char.ofNat 0x451              -- Ё
  else c

def pyLowerList (cs : List Char) : List Char := cs.map pyLowerChar

def pyLower (s : String) : String := ⟨pyLowerList s.data⟩

/-- Collapse every run of `' '` characters to a single `' '`.  Used after
mapping each whitespace character to `' '`; together the two steps implement
`re.sub(r'\s+', ' ', text)`. -/
def dedupSpaces : List Char → List Char
  | [] => []
  | c :: rest =>
    let r := dedupSpaces rest
    if c = ' ' then
      match r with
      | ' ' :: _ => r
      | _ => c :: r
    else c :: r

/-- `normalize_text` (utils.py:76-95): replace `\xa0` by a space, delete
`​`, collapse whitespace runs to single spaces, strip. -/
def normalizeText (s : String) : String :=
  let cs := s.data.filter (fun c => c ≠ '​')
  let cs := cs.map (fun c => if c = '\xa0' then ' ' else c)
  let cs := cs.map (fun c => if isPySpace c then ' ' else c)
  ⟨pyStripList (dedupSpaces cs)⟩

/-! ## Dates (CPython `datetime.date`) -/

structure PyDate where
  year : Int
  month : Nat
  day : Nat
  deriving DecidableEq, Repr

/-- `_DAYS_BEFORE_MONTH` of CPython's datetime module. -/
def daysBeforeMonthTable : Nat → Nat
  | 1 => 0 | 2 => 31 | 3 => 59 | 4 => 90 | 5 => 120 | 6 => 151
  | 7 => 181 | 8 => 212 | 9 => 243 | 10 => 273 | 11 => 304 | 12 => 334
  | _ => 0

def isLeap (y : Int) : Bool :=
  y.fmod 4 = 0 && (y.fmod 100 ≠ 0 || y.fmod 400 = 0)

/-- Days before January 1 of `y` (CPython `_days_before_year`). -/
def daysBeforeYear (y : Int) : Int :=
  (y - 1) * 365 + (y - 1).fdiv 4 - (y - 1).fdiv 100 + (y - 1).fdiv 400

def daysInMonth (y : Int) (m : Nat) : Nat :=
  if m = 2 then (if isLeap y then 29 else 28)
  else if m = 4 ∨ m = 6 ∨ m = 9 ∨ m = 11 then 30
  else 31

/-- CPython `date.toordinal`: ordinal 1 is 0001-01-01. -/
def toordinal (d : PyDate) : Int :=
  daysBeforeYear d.year
    + ((daysBeforeMonthTable d.month : Int)
        + (if 2 < d.month ∧ isLeap d.year then 1 else 0))
    + (d.day : Int)

/-- CPython `date.weekday()`: Monday = 0. -/
def pyWeekday (d : PyDate) : Int :=
  (toordinal d + 6).fmod 7

/-- A value representable as a CPython `date`. -/
def PyDate.Valid (d : PyDate) : Prop :=
  1 ≤ d.month ∧ d.month ≤ 12 ∧ 1 ≤ d.day ∧ d.day ≤ daysInMonth d.year d.month

instance (d : PyDate) : Decidable d.Valid := by
  unfold PyDate.Valid; infer_instance

/-- Inverse of `toordinal` (CPython `date.fromordinal`), implemented with the
standard civil-from-days conversion; used only computationally, to rebuild a
`date` from ordinal arithmetic (`date ± timedelta`). -/
def fromordinal (n : Int) : PyDate :=
  let z := n - 719163 + 719468
  let era := z.fdiv 146097
  let doe := z - era * 146097
  let yoe := (doe - doe.fdiv 1460 + doe.fdiv 36524 - doe.fdiv 146096).fdiv 365
  let y := yoe + era * 400
  let doy := doe - (365 * yoe + yoe.fdiv 4 - yoe.fdiv 100)
  let mp := (5 * doy + 2).fdiv 153
  let dd := doy - (153 * mp + 2).fdiv 5 + 1
  let m := if mp < 10 then mp + 3 else mp - 9
  ⟨(if m ≤ 2 then y + 1 else y), m.toNat, dd.toNat⟩

/-! ## Calendar service (utils.py:483-621) -/

/-- `get_academic_year_start` (utils.py:525-538): September 1 of the academic
year owning the date. -/
def getAcademicYearStart (d : PyDate) : PyDate :=
  ⟨(if d.month < 9 then d.year - 1 else d.year), 9, 1⟩

/-- `get_week_type_for_date` (utils.py:541-590).  Week containing September 1
is week 1 (odd); parity alternates weekly.  Dates before the academic-year
start return "odd" directly. -/
def getWeekTypeForDate (d : PyDate) : String :=
  let year := if d.month < 9 then d.year - 1 else d.year
  let academicYearStart : PyDate := ⟨year, 9, 1⟩
  if toordinal d < toordinal academicYearStart then "odd"
  else
    let sept1Weekday := pyWeekday academicYearStart
    let firstWeekMondayOrd := toordinal academicYearStart - sept1Weekday
    let daysDiff := toordinal d - firstWeekMondayOrd
    let weekNumber := daysDiff.fdiv 7 + 1
    if weekNumber.fmod 2 = 0 then "even" else "odd"

/-- The `else` branch of `get_week_type_for_date` alone (the week-number
computation, with the early `return "odd"` guard removed). -/
def getWeekTypeUnguarded (d : PyDate) : String :=
  if ((toordinal d
        - (toordinal (getAcademicYearStart d) - pyWeekday (getAcademicYearStart d))).fdiv 7
      + 1).fmod 2 = 0
  then "even" else "odd"

/-- `get_monday_of_week` (utils.py:483-506), returning the Monday's ordinal
(the caller-side date value is `fromordinal` of this).  If `weekType` is given
and the natural week's parity differs, shifts one week forward. -/
def getMondayOfWeek (d : PyDate) (weekType : Option String) : Int :=
  let monday := toordinal d - pyWeekday d
  match weekType with
  | none => monday
  | some w =>
    if getWeekTypeForDate (fromordinal monday) ≠ w then monday + 7 else monday

/-! ### Calendar lemmas -/

theorem daysBeforeYear_succ (y : Int) :
    daysBeforeYear (y + 1) = daysBeforeYear y + 365 + (if isLeap y then 1 else 0) := by
  unfold daysBeforeYear isLeap
  rw [show y + 1 - 1 = y by ring]
  rw [Int.fdiv_eq_ediv _ (by norm_num), Int.fdiv_eq_ediv _ (by norm_num),
      Int.fdiv_eq_ediv _ (by norm_num), Int.fdiv_eq_ediv _ (by norm_num),
      Int.fdiv_eq_ediv _ (by norm_num), Int.fdiv_eq_ediv _ (by norm_num),
      Int.fmod_eq_emod _ (by norm_num), Int.fmod_eq_emod _ (by norm_num),
      Int.fmod_eq_emod _ (by norm_num)]
  split_ifs with h <;>
    simp only [Bool.and_eq_true, Bool.or_eq_true, decide_eq_true_eq, ne_eq,
      Bool.not_eq_true, not_and, not_or, Decidable.not_not] at h <;> omega

/-- The academic-year start of a valid date never lies after the date:
September 1 of the owning year is on or before the date itself. -/
theorem acadStart_le_toordinal (d : PyDate) (hv : d.Valid) :
    toordinal (getAcademicYearStart d) ≤ toordinal d := by
  obtain ⟨hm1, hm12, hd1, _⟩ := hv
  unfold getAcademicYearStart toordinal
  by_cases hlt : d.month < 9
  · simp only [hlt, if_true]
    have hsucc := daysBeforeYear_succ (d.year - 1)
    rw [show d.year - 1 + 1 = d.year by ring] at hsucc
    rw [hsucc]
    have hdb : (0 : Int) ≤ (daysBeforeMonthTable d.month : Int) := Int.ofNat_nonneg _
    simp only [show daysBeforeMonthTable 9 = 243 from rfl]
    split_ifs <;> omega
  · simp only [hlt, if_false]
    push_neg at hlt
    interval_cases d.month <;>
      simp only [daysBeforeMonthTable] <;> split_ifs <;> omega

/-- On valid dates the early `return "odd"` guard of `get_week_type_for_date`
never fires, so the function coincides with its unguarded week-number body. -/
theorem getWeekTypeForDate_eq_unguarded (d : PyDate) (hv : d.Valid) :
    getWeekTypeForDate d = getWeekTypeUnguarded d := by
  unfold getWeekTypeForDate getWeekTypeUnguarded getAcademicYearStart
  have h := acadStart_le_toordinal d hv
  unfold getAcademicYearStart at h
  rw [if_neg (by omega)]

theorem fdiv_seven_add (a : Int) : (a + 7).fdiv 7 = a.fdiv 7 + 1 := by
  rw [Int.fdiv_eq_ediv _ (by norm_num), Int.fdiv_eq_ediv _ (by norm_num)]
  omega

theorem parity_string_flip (w : Int) :
    (if (w + 1).fmod 2 = 0 then "even" else "odd")
      ≠ (if w.fmod 2 = 0 then "even" else "odd") := by
  rw [Int.fmod_eq_emod _ (by norm_num), Int.fmod_eq_emod _ (by norm_num)]
  by_cases h : w % 2 = 0
  · rw [if_pos h, if_neg (by omega)]
    decide
  · rw [if_neg h, if_pos (by omega)]
    decide

/-- C10: for every valid date, the academic-year start computed inside
`get_week_type_for_date` (September 1, year decremented before September) is
on or before the date, so the early branch returning "odd" for dates before
the academic-year start is unreachable: the function always reaches (and
equals) the week-number computation. -/
theorem c10_early_branch_unreachable (d : PyDate) (hv : d.Valid) :
    toordinal (getAcademicYearStart d) ≤ toordinal d ∧
    getWeekTypeForDate d = getWeekTypeUnguarded d :=
  ⟨acadStart_le_toordinal d hv, getWeekTypeForDate_eq_unguarded d hv⟩

theorem c10_early_branch_unreachable_witness :
    toordinal (getAcademicYearStart ⟨2025, 1, 15⟩) ≤ toordinal ⟨2025, 1, 15⟩ ∧
    getWeekTypeForDate ⟨2025, 1, 15⟩ = getWeekTypeUnguarded ⟨2025, 1, 15⟩ :=
  c10_early_branch_unreachable ⟨2025, 1, 15⟩ (by decide)

/-- C4 as frozen is false at the academic-year rollover: August 25, 2025 and
September 1, 2025 are consecutive Mondays, yet `get_week_type_for_date`
returns "odd" for both (week 53 of academic year 2024/25 and week 1 of
2025/26). -/
theorem c4_counterexample :
    pyWeekday ⟨2025, 8, 25⟩ = 0 ∧
    toordinal ⟨2025, 9, 1⟩ = toordinal ⟨2025, 8, 25⟩ + 7 ∧
    getWeekTypeForDate ⟨2025, 8, 25⟩ = "odd" ∧
    getWeekTypeForDate ⟨2025, 9, 1⟩ = "odd" := by
  refine ⟨by decide, by decide, ?_, ?_⟩ <;> decide

/-- C4 (amended): (1) for two consecutive Mondays owned by the same academic
year, `get_week_type_for_date` returns different parities (alternation can
break only at the academic-year rollover, as the counterexample shows);
(2) every valid date lying in the week containing September 1 of its owning
academic year gets parity "odd". -/
theorem c4_parity_alternation_amended :
    (∀ d d' : PyDate, d.Valid → d'.Valid → pyWeekday d = 0 →
        toordinal d' = toordinal d + 7 →
        getAcademicYearStart d = getAcademicYearStart d' →
        getWeekTypeForDate d ≠ getWeekTypeForDate d') ∧
    (∀ d : PyDate, d.Valid →
        toordinal (getAcademicYearStart d) - pyWeekday (getAcademicYearStart d)
            ≤ toordinal d →
        toordinal d
            < toordinal (getAcademicYearStart d) - pyWeekday (getAcademicYearStart d) + 7 →
        getWeekTypeForDate d = "odd") := by
  constructor
  · intro d d' hd hd' _hmon hord hsame
    rw [getWeekTypeForDate_eq_unguarded d hd, getWeekTypeForDate_eq_unguarded d' hd']
    unfold getWeekTypeUnguarded
    rw [← hsame, hord]
    rw [show toordinal d + 7
          - (toordinal (getAcademicYearStart d) - pyWeekday (getAcademicYearStart d))
        = (toordinal d
          - (toordinal (getAcademicYearStart d) - pyWeekday (getAcademicYearStart d))) + 7
        by ring]
    rw [fdiv_seven_add]
    exact (parity_string_flip _).symm
  · intro d hd hlo hhi
    rw [getWeekTypeForDate_eq_unguarded d hd]
    unfold getWeekTypeUnguarded
    have h0 : (toordinal d
        - (toordinal (getAcademicYearStart d) - pyWeekday (getAcademicYearStart d))).fdiv 7
        = 0 := by
      rw [Int.fdiv_eq_ediv _ (by norm_num)]
      omega
    rw [h0]
    decide

theorem c4_parity_alternation_amended_witness :
    getWeekTypeForDate ⟨2025, 9, 8⟩ ≠ getWeekTypeForDate ⟨2025, 9, 15⟩ ∧
    getWeekTypeForDate ⟨2025, 9, 3⟩ = "odd" :=
  ⟨c4_parity_alternation_amended.1 ⟨2025, 9, 8⟩ ⟨2025, 9, 15⟩ (by decide) (by decide)
      (by decide) (by decide) (by decide),
    c4_parity_alternation_amended.2 ⟨2025, 9, 3⟩ (by decide) (by decide) (by decide)⟩

/-! ## Cell-text parser (utils.py:98-480)

Each regular expression of the source is hand-compiled into a dedicated
matcher.  Python `re` semantics are preserved: `search`/`finditer` try start
positions left to right; quantifiers are greedy, with backtracking carried
out explicitly where the pattern requires it (noted at each matcher — for
most patterns the greedy run and its follow set are disjoint character
classes, so maximal munch is already exact).  `finditer` + reversed
span-replacement in the source is equivalent to a single left-to-right
scan that replaces every non-overlapping leftmost match by `' '`. -/

def isDigitChar (c : Char) : Bool := '0' ≤ c && c ≤ '9'

/-- `[А-ЯЁ]`: uppercase Russian Cyrillic incl. Ё. -/
def isUpperCyr (c : Char) : Bool :=
  (0x410 ≤ c.toNat && c.toNat ≤ 0x42F) || c.toNat = 0x401

/-- `[а-яА-Я]`: Cyrillic letters *excluding* Ё/ё (the source classes never
include Ё). -/
def isCyrNoYo (c : Char) : Bool :=
  0x410 ≤ c.toNat && c.toNat ≤ 0x44F

/-- `LESSON_TYPE_PREFIXES` (utils.py:39-45), in dict insertion order. -/
def lessonTypePrefixes : List (String × String) :=
  [("лек.", "Лекция"), ("пр.", "Практика"), ("лаб.", "Лабораторная"),
   ("сем.", "Семинар"), ("конс.", "Консультация")]

def extractLessonTypeGo (t : List Char) : List (String × String) → Option String × List Char
  | [] => (none, t)
  | (pre, ty) :: rest =>
    if pre.data.isPrefixOf (pyLowerList t) then
      (some ty, pyStripList (t.drop pre.data.length))
    else extractLessonTypeGo t rest

/-- `extract_lesson_type` (utils.py:98-114): a leading prefix from the fixed
table (matched on the lowercased text) is stripped; the remainder keeps its
original case. -/
def extractLessonType (s : String) : Option String × String :=
  let t := pyStripList s.data
  let (ty, r) := extractLessonTypeGo t lessonTypePrefixes
  (ty, ⟨r⟩)

/-- Try the subgroup pattern `[-\s]*(\d)\s*п/г` (IGNORECASE) at the current
position; the leading `[-\s]*` run and `\d` are disjoint, as are `\s*` and
`п`, so greedy munch is exact.  Returns the captured digit and the input
remaining after the match. -/
def subgroupAt (cs : List Char) : Option (Char × List Char) :=
  let t := cs.dropWhile (fun c => c = '-' || isPySpace c)
  match t with
  | c :: t' =>
    if isDigitChar c then
      match t'.dropWhile isPySpace with
      | p :: s :: g :: rest =>
        if pyLowerChar p = 'п' && s = '/' && pyLowerChar g = 'г' then some (c, rest)
        else none
      | _ => none
    else none
  | [] => none

/-- Leftmost match of the subgroup pattern: `(prefix before the match,
captured digit, suffix after the match)`. -/
def findSubgroup : List Char → Option (List Char × Char × List Char)
  | [] => none
  | c :: rest =>
    match subgroupAt (c :: rest) with
    | some (d, after) => some ([], d, after)
    | none =>
      match findSubgroup rest with
      | some (before, d, after) => some (c :: before, d, after)
      | none => none

/-- `extract_subgroup` (utils.py:117-143): `re.search(r'[-\s]*(\d)\s*п/г')`;
the matched span is removed (and the result stripped) only when the digit is
1 or 2. -/
def extractSubgroup (s : String) : Option Nat × String :=
  match findSubgroup s.data with
  | some (before, d, after) =>
    let n := d.toNat - 48
    if n = 1 ∨ n = 2 then (some n, ⟨pyStripList (before ++ after)⟩)
    else (none, s)
  | none => (none, s)

/-- Case-insensitive literal match (`pat` given in lowercase); returns the
rest after the literal. -/
def matchCI : List Char → List Char → Option (List Char)
  | [], rest => some rest
  | _ :: _, [] => none
  | p :: ps, c :: rest => if pyLowerChar c = p then matchCI ps rest else none

/-- `\s+` followed by maximal munch (follow sets of all users are disjoint
from whitespace). -/
def spacePlus (cs : List Char) : Option (List Char) :=
  match cs with
  | c :: t => if isPySpace c then some (t.dropWhile isPySpace) else none
  | [] => none

/-- Generic `finditer`-and-replace-with-`' '`: scans left to right, replacing
each leftmost non-overlapping match.  `fuel` bounds the recursion; it is
called with `fuel = cs.length`, which suffices because every matcher consumes
at least one character. -/
def replaceScan (mAt : List Char → Option (List Char)) : Nat → List Char → List Char
  | 0, cs => cs
  | _ + 1, [] => []
  | n + 1, c :: rest =>
    match mAt (c :: rest) with
    | some rest' => ' ' :: replaceScan mAt n rest'
    | none => c :: replaceScan mAt n rest

def replaceAll (mAt : List Char → Option (List Char)) (cs : List Char) : List Char :=
  replaceScan mAt cs.length cs

/-- Comment pattern `\s+и/д(?:экол)?\s*` (IGNORECASE). -/
def commentIdAt (cs : List Char) : Option (List Char) :=
  (spacePlus cs).bind fun t =>
    (matchCI ['и', '/', 'д'] t).map fun t2 =>
      let t3 := match matchCI ['э', 'к', 'о', 'л'] t2 with
        | some r => r
        | none => t2
      t3.dropWhile isPySpace

/-- Comment patterns `\s+эбж\s*` / `\s+экол\s*` / `\s+ТМиОК\s*` (IGNORECASE). -/
def commentWordAt (w : List Char) (cs : List Char) : Option (List Char) :=
  (spacePlus cs).bind fun t =>
    (matchCI w t).map fun t2 => t2.dropWhile isPySpace

/-- `\(.*?\)`: lazy dot — the nearest `)` with no newline in between. -/
def closeParen : List Char → Option (List Char)
  | [] => none
  | c :: t => if c = ')' then some t else if c = '\n' then none else closeParen t

def parenAt (cs : List Char) : Option (List Char) :=
  match cs with
  | '(' :: rest => closeParen rest
  | _ => none

/-- `extract_comment` (utils.py:271-307): the five comment patterns applied
in order, each replacing all its matches by a space; the collected comment
string itself is discarded by the caller (`parse_lesson_info` stores
`comment=None`), so only the rewritten text is returned. -/
def extractCommentText (s : String) : List Char :=
  let cs := s.data
  let cs := replaceAll commentIdAt cs
  let cs := replaceAll (commentWordAt ['э', 'б', 'ж']) cs
  let cs := replaceAll (commentWordAt ['э', 'к', 'о', 'л']) cs
  let cs := replaceAll (commentWordAt ['т', 'м', 'и', 'о', 'к']) cs
  let cs := replaceAll parenAt cs
  pyStripList cs

/-- Like `spacePlus` but also returns the consumed whitespace run (it is part
of the teacher match span). -/
def spacePlusKeep (cs : List Char) : Option (List Char × List Char) :=
  match cs with
  | c :: _ =>
    if isPySpace c then
      some (cs.takeWhile isPySpace, cs.dropWhile isPySpace)
    else none
  | [] => none

/-- Tail `\.?[А-ЯЁ]\.?` of the initials pattern, with the required
backtracking: if taking the optional dot leaves no uppercase letter, the
dot-free alternative would still need an uppercase letter at the dot itself,
so the position fails. -/
def initTailImpl : List Char → Option (List Char × List Char)
  | '.' :: c :: r =>
    if isUpperCyr c then
      match r with
      | '.' :: r' => some (['.', c, '.'], r')
      | _ => some (['.', c], r)
    else none
  | c :: r =>
    if isUpperCyr c then
      match r with
      | '.' :: r' => some ([c, '.'], r')
      | _ => some ([c], r)
    else none
  | [] => none

/-- Initials `[А-ЯЁ]{1,2}\.?[А-ЯЁ]\.?`: `{1,2}` greedily takes two letters
and backtracks to one when the tail fails. -/
def matchInitials (t : List Char) : Option (List Char × List Char) :=
  match t with
  | a :: b :: r =>
    if isUpperCyr a && isUpperCyr b then
      match initTailImpl r with
      | some (con, rest) => some (a :: b :: con, rest)
      | none =>
        match initTailImpl (b :: r) with
        | some (con, rest) => some (a :: con, rest)
        | none => none
    else if isUpperCyr a then
      match initTailImpl (b :: r) with
      | some (con, rest) => some (a :: con, rest)
      | none => none
    else none
  | _ => none

/-- Teacher pattern `[А-ЯЁ]+(?:-[А-ЯЁ]+)?\s+(?:[А-ЯЁ]{1,2}\.?[А-ЯЁ]\.?)`
(utils.py:186) at the current position.  The greedy surname run is followed
by `-` or `\s`, both outside `[А-ЯЁ]`, so no backtracking into the run can
succeed; if the optional `-[А-ЯЁ]+` part is absent or fails, `\s+` fails on
the same character, so trying it greedily is exact. -/
def matchTeacherAt (cs : List Char) : Option (List Char × List Char) :=
  let run := cs.takeWhile isUpperCyr
  if run.isEmpty then none
  else
    let t := cs.drop run.length
    let hyT : List Char × List Char :=
      match t with
      | '-' :: u =>
        let r2 := u.takeWhile isUpperCyr
        if r2.isEmpty then ([], t) else ('-' :: r2, u.drop r2.length)
      | _ => ([], t)
    let hy := hyT.1
    let t2 := hyT.2
    match spacePlusKeep t2 with
    | some (sp, t3) =>
      match matchInitials t3 with
      | some (ini, rest) => some (run ++ hy ++ sp ++ ini, rest)
      | none => none
    | none => none

/-- `finditer` over the teacher pattern, replacing each match by `' '` and
collecting the match texts in order (the source collects with `insert(0)`
while iterating the matches reversed, which yields the same in-order list).
`fuel` is called with the text length; each match consumes ≥ 1 character. -/
def scanTeachers : Nat → List Char → List (List Char) × List Char
  | 0, cs => ([], cs)
  | _ + 1, [] => ([], [])
  | n + 1, c :: rest =>
    match matchTeacherAt (c :: rest) with
    | some (m, rest') =>
      let p := scanTeachers n rest'
      (m :: p.1, ' ' :: p.2)
    | none =>
      let p := scanTeachers n rest
      (p.1, c :: p.2)

/-- Python `s.split(maxsplit=1)`. -/
def pySplit1 (cs : List Char) : List (List Char) :=
  let cs0 := cs.dropWhile isPySpace
  if cs0.isEmpty then []
  else
    let first := cs0.takeWhile (fun c => !isPySpace c)
    let rest := (cs0.drop first.length).dropWhile isPySpace
    if rest.isEmpty then [first] else [first, rest]

/-- `re.sub(r'([А-ЯЁ])(?=[А-ЯЁ])', r'\1.', s)`: a dot after every uppercase
letter that is immediately followed by another (the lookahead consumes
nothing). -/
def interDots : List Char → List Char
  | [] => []
  | [c] => [c]
  | a :: b :: r =>
    if isUpperCyr a && isUpperCyr b then a :: '.' :: interDots (b :: r)
    else a :: interDots (b :: r)

/-- `normalize_teacher_name` (utils.py:227-268). -/
def normalizeTeacherName (cs : List Char) : List Char :=
  if cs.isEmpty then cs
  else
    match pySplit1 cs with
    | [surname, initials] =>
      let clean := initials.filter (fun c => c ≠ '.')
      if 2 ≤ clean.length && clean.length ≤ 3 && clean.all isUpperCyr then
        surname ++ ' ' :: (clean.intersperse '.' ++ ['.'])
      else
        let norm := interDots clean
        let norm := if norm.getLast? = some '.' then norm else norm ++ ['.']
        surname ++ ' ' :: norm
    | _ => cs

/-- Character class `[\dа-яА-Я\-]` of the cabinet pattern. -/
def isCabChar (c : Char) : Bool := isDigitChar c || isCyrNoYo c || c = '-'

/-- Cabinet pattern `а\.[\dа-яА-Я\-]+(?:/[а-яА-Я]+|и/д(?:экол)?|эбж|экол)?`
(IGNORECASE, utils.py:209) at the current position.  The greedy class run is
maximal; of the optional alternatives only `/[а-яА-Я]+` can ever fire,
because the first character of each other alternative (`и`, `э`) lies inside
the class and would have been consumed by the run. -/
def matchCabinetAt (cs : List Char) : Option (List Char × List Char) :=
  match cs with
  | a :: '.' :: t =>
    if pyLowerChar a = 'а' then
      let run := t.takeWhile isCabChar
      if run.isEmpty then none
      else
        let t2 := t.drop run.length
        match t2 with
        | '/' :: u =>
          let ls := u.takeWhile isCyrNoYo
          if ls.isEmpty then some (a :: '.' :: run, t2)
          else some (a :: '.' :: run ++ '/' :: ls, u.drop ls.length)
        | _ => some (a :: '.' :: run, t2)
    else none
  | _ => none

/-- `finditer` over the cabinet pattern, replacing matches by `' '` and
collecting them in order. -/
def scanCabinets : Nat → List Char → List (List Char) × List Char
  | 0, cs => ([], cs)
  | _ + 1, [] => ([], [])
  | n + 1, c :: rest =>
    match matchCabinetAt (c :: rest) with
    | some (m, rest') =>
      let p := scanCabinets n rest'
      (m :: p.1, ' ' :: p.2)
    | none =>
      let p := scanCabinets n rest
      (p.1, c :: p.2)

/-- `re.sub(r'\s*-\s*', ' ', ...)`: a hyphen with optional surrounding
whitespace. -/
def hyphenAt (cs : List Char) : Option (List Char) :=
  match cs.dropWhile isPySpace with
  | '-' :: t => some (t.dropWhile isPySpace)
  | _ => none

/-- `re.sub(r'\s+', ' ', ·).strip()`. -/
def collapseWsStrip (cs : List Char) : List Char :=
  pyStripList (dedupSpaces (cs.map (fun c => if isPySpace c then ' ' else c)))

/-- `extract_teachers_and_cabinets` (utils.py:145-224): stage 0 removes
standalone comments, stage 1 extracts and removes teacher names (normalized),
stage 2 extracts and removes cabinets, stage 3 cleans separator hyphens and
whitespace; the remainder is the (raw) discipline name. -/
def extractTeachersAndCabinets (s : String) :
    List String × List String × String :=
  let cs0 := extractCommentText s
  let tp := scanTeachers cs0.length cs0
  let teachers := tp.1.map (fun m => String.mk (normalizeTeacherName (pyStripList m)))
  let cp := scanCabinets tp.2.length tp.2
  let cabinets := cp.1.map String.mk
  let cs3 := replaceAll hyphenAt cp.2
  (teachers, cabinets, ⟨collapseWsStrip cs3⟩)

/-- Exact-suffix test for `[А-ЯЁ]{1,3}\.?(?:[А-ЯЁ]\.?)?` consuming all of
`t` (used anchored at `$`); for a Boolean whole-match test the greedy order
is immaterial, so all alternative shapes are enumerated. -/
def initialsSuffix (t : List Char) : Bool :=
  (List.range 3).any fun k0 =>
    let k := k0 + 1
    decide (k ≤ t.length) && (t.take k).all isUpperCyr &&
      (match t.drop k with
       | [] => true
       | ['.'] => true
       | [c] => isUpperCyr c
       | [c, '.'] => isUpperCyr c
       | ['.', c] => isUpperCyr c
       | ['.', c, '.'] => isUpperCyr c
       | _ => false)

/-- `re.sub` of an `$`-anchored pattern: remove the leftmost suffix of `cs`
satisfying `p` (patterns here never match the empty string). -/
def stripFirstSuffixAux (p : List Char → Bool) : List Char → Option (List Char)
  | [] => none
  | c :: rest =>
    if p (c :: rest) then some []
    else
      match stripFirstSuffixAux p rest with
      | some kept => some (c :: kept)
      | none => none

def stripFirstSuffix (p : List Char → Bool) (cs : List Char) : List Char :=
  (stripFirstSuffixAux p cs).getD cs

/-- `\s+(?:эбж|экол|ТМиОК)$` (IGNORECASE) as an exact-suffix test. -/
def commentSuffix (t : List Char) : Bool :=
  match t with
  | c :: _ =>
    isPySpace c &&
      (let w := pyLowerList (t.dropWhile isPySpace)
       w = ['э', 'б', 'ж'] || w = ['э', 'к', 'о', 'л'] || w = ['т', 'м', 'и', 'о', 'к'])
  | [] => false

/-- `\s+\.$` as an exact-suffix test. -/
def loneDotSuffix (t : List Char) : Bool :=
  match t with
  | c :: _ => isPySpace c && t.dropWhile isPySpace = ['.']
  | [] => false

/-- `\s+[А-ЯЁ]{1,3}\.?(?:[А-ЯЁ]\.?)?$` as an exact-suffix test. -/
def loneInitialsSuffix (t : List Char) : Bool :=
  match t with
  | c :: _ => isPySpace c && initialsSuffix (t.dropWhile isPySpace)
  | [] => false

/-- `/[а-яА-Я]+$` as an exact-suffix test. -/
def slashCommentSuffix (t : List Char) : Bool :=
  match t with
  | '/' :: rest => !rest.isEmpty && rest.all isCyrNoYo
  | _ => false

/-- `и/д(?:экол)?$` (IGNORECASE) as an exact-suffix test. -/
def idSuffix (t : List Char) : Bool :=
  let w := pyLowerList t
  w = ['и', '/', 'д'] || w = ['и', '/', 'д', 'э', 'к', 'о', 'л']

/-- `clean_discipline_name` (utils.py:310-347): the five `$`-anchored
`re.sub` passes in source order, then whitespace collapse and strip. -/
def cleanDisciplineName (s : String) : String :=
  if s.isEmpty then s
  else
    let cs := s.data
    let cs := stripFirstSuffix commentSuffix cs
    let cs := stripFirstSuffix loneDotSuffix cs
    let cs := stripFirstSuffix loneInitialsSuffix cs
    let cs := stripFirstSuffix slashCommentSuffix cs
    let cs := stripFirstSuffix idSuffix cs
    ⟨collapseWsStrip cs⟩

/-- `LessonInfo` (utils.py:48-73); `comment` is always `None` in the results
of `parse_lesson_info`. -/
structure LessonInfo where
  name : String
  lesson_type : Option String := none
  teachers : List String := []
  cabinets : List String := []
  subgroup : Option Nat := none
  comment : Option String := none
  deriving DecidableEq, Repr

/-- `parse_lesson_info` (utils.py:350-402): the ordered extraction pipeline.
When the cleaned name is empty but teachers or cabinets were found, the text
as it stood *after* lesson-type and subgroup extraction is used as the name. -/
def parseLessonInfo (rawText : String) : LessonInfo :=
  if rawText = "" || pyStrip rawText = "_" || pyStrip rawText = "" then
    { name := "" }
  else
    let text0 := normalizeText rawText
    let (lessonType, text1) := extractLessonType text0
    let (subgroup, text2) := extractSubgroup text1
    let (teachers, cabinets, rawName) := extractTeachersAndCabinets text2
    let lessonName := cleanDisciplineName rawName
    let lessonName :=
      if lessonName = "" && (!teachers.isEmpty || !cabinets.isEmpty) then text2
      else lessonName
    { name := lessonName, lesson_type := lessonType, teachers := teachers,
      cabinets := cabinets, subgroup := subgroup, comment := none }

/-- C6 as frozen is false: on `"лек.История МИХЕЕВ Б.В. а.15-466"` the
parser's classroom value keeps the `а.` marker prefix — it is `"а.15-466"`,
not `"15-466"` (the cabinet regex match `а\.[\dа-яА-Я\-]+...` includes the
marker, and nothing strips it downstream). -/
theorem c6_counterexample :
    (parseLessonInfo "лек.История МИХЕЕВ Б.В. а.15-466").cabinets ≠ ["15-466"] := by
  decide

/-- C6 (amended): `parse_lesson_info "лек.История МИХЕЕВ Б.В. а.15-466"`
returns the canonical lecture label `"Лекция"`, name `"История"`, teachers
`["МИХЕЕВ Б.В."]`, cabinets `["а.15-466"]` (classroom tokens carry the
`а.` marker prefix), and no subgroup. -/
theorem c6_literal_cell_parse_amended :
    parseLessonInfo "лек.История МИХЕЕВ Б.В. а.15-466"
      = { name := "История", lesson_type := some "Лекция",
          teachers := ["МИХЕЕВ Б.В."], cabinets := ["а.15-466"],
          subgroup := none, comment := none } := by
  decide

/-- C7 as frozen is false: on `"лек.МИХЕЕВ Б.В. а.15-466"` the extraction
pipeline leaves an empty name while finding a teacher, and the fallback name
is the text *after* lesson-type (and subgroup) extraction
(`"МИХЕЕВ Б.В. а.15-466"`), not the original trimmed input. -/
theorem c7_counterexample :
    cleanDisciplineName
        (extractTeachersAndCabinets
          (extractSubgroup
            (extractLessonType (normalizeText "лек.МИХЕЕВ Б.В. а.15-466")).2).2).2.2 = ""
    ∧ (parseLessonInfo "лек.МИХЕЕВ Б.В. а.15-466").teachers ≠ []
    ∧ (parseLessonInfo "лек.МИХЕЕВ Б.В. а.15-466").name
        ≠ pyStrip "лек.МИХЕЕВ Б.В. а.15-466"
    ∧ (parseLessonInfo "лек.МИХЕЕВ Б.В. а.15-466").name = "МИХЕЕВ Б.В. а.15-466" := by
  refine ⟨by decide, by decide, by decide, by decide⟩

/-- C7 (amended): for every non-placeholder input cell string, whenever the
discipline name left by the extraction pipeline is empty but at least one
teacher or classroom was extracted, `parse_lesson_info` falls back to the
normalized text as it stood after lesson-type and subgroup extraction (not
the original trimmed input). -/
theorem c7_empty_name_fallback_amended (raw : String)
    (hne : ¬(raw = "" ∨ pyStrip raw = "_" ∨ pyStrip raw = ""))
    (ty : Option String) (t1 : String) (sg : Option Nat) (t2 : String)
    (te ca : List String) (nm : String)
    (h1 : extractLessonType (normalizeText raw) = (ty, t1))
    (h2 : extractSubgroup t1 = (sg, t2))
    (h3 : extractTeachersAndCabinets t2 = (te, ca, nm))
    (hempty : cleanDisciplineName nm = "")
    (hfound : te ≠ [] ∨ ca ≠ []) :
    (parseLessonInfo raw).name = t2 := by
  push_neg at hne
  obtain ⟨hr1, hr2, hr3⟩ := hne
  unfold parseLessonInfo
  rw [if_neg (by simp [hr1, hr2, hr3])]
  simp only [h1, h2, h3, hempty]
  have hb : (!te.isEmpty || !ca.isEmpty) = true := by
    rcases hfound with h | h
    · simp [List.isEmpty_iff, h]
    · simp [List.isEmpty_iff, h]
  simp [hb]

theorem c7_empty_name_fallback_amended_witness :
    (parseLessonInfo "лек.МИХЕЕВ Б.В. а.15-466").name = "МИХЕЕВ Б.В. а.15-466" :=
  c7_empty_name_fallback_amended "лек.МИХЕЕВ Б.В. а.15-466" (by decide)
    (some "Лекция") "МИХЕЕВ Б.В. а.15-466" none "МИХЕЕВ Б.В. а.15-466"
    ["МИХЕЕВ Б.В."] ["а.15-466"] ""
    (by decide) (by decide) (by decide) (by decide) (Or.inl (by decide))

/-! ## HTML table extractor (parser.py:31-113)

`ScheduleHTMLParser` subclasses `html.parser.HTMLParser` and only ever sees
the tokenizer's callbacks.  The markup is therefore embedded at that
interface: an input is a list of `HtmlEvent`s (start tag with attributes,
end tag, text data), and the state machine is the `handle_*` methods
verbatim.  Any event list is realizable as concrete HTML. -/

inductive HtmlEvent where
  | startTag (tag : String) (attrs : List (String × String))
  | endTag (tag : String)
  | data (s : String)
  deriving DecidableEq, Repr

structure HtmlParserState where
  in_table : Bool := false
  in_row : Bool := false
  in_cell : Bool := false
  current_row : List String := []
  current_row_flags : List Bool := []
  rows : List (List String) := []
  row_metadata : List Bool := []
  cell_data : List String := []
  cell_has_blue : Bool := false
  deriving DecidableEq, Repr

/-- One iteration of the attribute loop in the `font` case of
`handle_starttag` (parser.py:62-69): a `#ff00ff` color opens a cell, a
`#0000ff` color inside an open cell sets the blue flag. -/
def fontAttrStep (s : HtmlParserState) (av : String × String) : HtmlParserState :=
  if av.1 = "color" then
    let color := pyLower av.2
    let s := if color = "#ff00ff" then { s with in_cell := true } else s
    if color = "#0000ff" && s.in_cell then { s with cell_has_blue := true } else s
  else s

/-- `handle_starttag` (parser.py:48-69). -/
def handleStartTag (st : HtmlParserState) (tag : String)
    (attrs : List (String × String)) : HtmlParserState :=
  let t := pyLower tag
  if t = "table" then { st with in_table := true }
  else if t = "tr" then
    if st.in_table then
      { st with in_row := true, current_row := [], current_row_flags := [] }
    else st
  else if t = "td" then
    if st.in_row then
      { st with in_cell := true, cell_data := [], cell_has_blue := false }
    else st
  else if t = "font" then attrs.foldl fontAttrStep st
  else st

/-- `handle_endtag` (parser.py:71-90): `</tr>` records the current row (only
if non-empty) with the OR of its cells' blue flags; `</td>` and `</font>`
close the open cell, stripping the joined text. -/
def handleEndTag (st : HtmlParserState) (tag : String) : HtmlParserState :=
  let t := pyLower tag
  if t = "table" then { st with in_table := false }
  else if t = "tr" then
    if st.in_row then
      let st := { st with in_row := false }
      if st.current_row.isEmpty then st
      else
        { st with rows := st.rows ++ [st.current_row],
                  row_metadata := st.row_metadata ++ [st.current_row_flags.any id] }
    else st
  else if t = "td" ∨ t = "font" then
    if st.in_cell then
      { st with in_cell := false,
                current_row := st.current_row ++ [pyStrip (String.join st.cell_data)],
                current_row_flags := st.current_row_flags ++ [st.cell_has_blue],
                cell_data := [], cell_has_blue := false }
    else st
  else st

/-- `handle_data` (parser.py:92-98): text accumulates only inside an open
cell (the group-name branch is a `pass`). -/
def handleData (st : HtmlParserState) (s : String) : HtmlParserState :=
  if st.in_cell then { st with cell_data := st.cell_data ++ [s] } else st

def processEvent (st : HtmlParserState) : HtmlEvent → HtmlParserState
  | .startTag t a => handleStartTag st t a
  | .endTag t => handleEndTag st t
  | .data s => handleData st s

def runHtmlParser (events : List HtmlEvent) : HtmlParserState :=
  events.foldl processEvent {}

/-- `get_schedule_data` (parser.py:100-113): drop the two header rows, pair
each remaining row with its metadata flag. -/
def getScheduleData (st : HtmlParserState) : List (List String × Bool) :=
  if st.rows.length ≤ 2 then []
  else (st.rows.drop 2).zip (st.row_metadata.drop 2)

/-! ## Data model (models.py) -/

inductive WeekType where
  | even
  | odd
  deriving DecidableEq, Repr

def WeekType.value : WeekType → String
  | .even => "even"
  | .odd => "odd"

/-- `WeekType(s)` for the two strings `get_week_type_for_date` can return. -/
def weekTypeOfString (s : String) : WeekType :=
  if s = "even" then .even else .odd

inductive ChangeType where
  | new
  | update
  | delete
  deriving DecidableEq, Repr

structure PyTime where
  hour : Nat
  minute : Nat
  deriving DecidableEq, Repr

/-- `LESSON_TIMES` (utils.py:29-36); `.get(n, (None, None))` is the `none`
case. -/
def lessonTimes : Nat → Option (PyTime × PyTime)
  | 1 => some (⟨9, 0⟩, ⟨10, 35⟩)
  | 2 => some (⟨10, 45⟩, ⟨12, 20⟩)
  | 3 => some (⟨13, 0⟩, ⟨14, 35⟩)
  | 4 => some (⟨14, 45⟩, ⟨16, 20⟩)
  | 5 => some (⟨16, 25⟩, ⟨18, 0⟩)
  | 6 => some (⟨18, 5⟩, ⟨19, 40⟩)
  | _ => none

/-- `DAY_MAPPING` (utils.py:18-26). -/
def dayMapping (s : String) : Option Nat :=
  if s = "пнд" then some 1
  else if s = "втр" then some 2
  else if s = "срд" then some 3
  else if s = "чтв" then some 4
  else if s = "птн" then some 5
  else if s = "сбт" then some 6
  else if s = "вск" then some 7
  else none

/-- `Lesson` (models.py:25-90).  `lesson_date` is the ordinal of the Python
date; timestamps are write-only database columns never read by the engine and
are carried as opaque optional values.  The `lesson_type` field appears in
the package's constructors and storage schema (parser.py:276, db.py:121) and
is carried here; it takes no part in change-detection equality
(models.py:63-79). -/
structure Lesson where
  group_id : Nat
  name : String
  lesson_date : Int
  day_of_week : Nat
  lesson_number : Nat
  start_time : PyTime
  end_time : PyTime
  week_type : WeekType
  teacher_name : Option String := none
  cabinet_number : Option String := none
  subgroup : Option Nat := none
  lesson_type : Option String := none
  raw_text : Option String := none
  lesson_id : Option Nat := none
  date_added : Option Nat := none
  last_updated : Option Nat := none
  deriving DecidableEq, Repr

/-- `Lesson.__eq__` (models.py:63-79): change-detection equality compares
only name, teacher, cabinet, start/end time and subgroup — never identifier,
timestamps, dates, or raw text. -/
def eqLesson (a b : Lesson) : Bool :=
  a.name = b.name && a.teacher_name = b.teacher_name
    && a.cabinet_number = b.cabinet_number
    && a.start_time = b.start_time && a.end_time = b.end_time
    && a.subgroup = b.subgroup

/-! ## Schedule builder (parser.py:145-300) -/

/-- `'; '.join(...)  if ... else None`. -/
def joinSemicolon (l : List String) : String := String.intercalate "; " l

structure BuildCtx where
  currentWeekType : WeekType
  nextWeekType : WeekType
  currentWeekMonday : Int
  nextWeekMonday : Int
  mondayEven : Int
  mondayOdd : Int
  highlightPresent : Bool
  deriving Repr

/-- The per-table context computed at the top of `parse_schedule_html`
(parser.py:159-173). -/
def mkBuildCtx (today : PyDate) (scheduleData : List (List String × Bool)) : BuildCtx :=
  let cwt := weekTypeOfString (getWeekTypeForDate today)
  { currentWeekType := cwt
    nextWeekType := if cwt = .even then .odd else .even
    currentWeekMonday := getMondayOfWeek today none
    nextWeekMonday := getMondayOfWeek today none + 7
    mondayEven := getMondayOfWeek today (some "even")
    mondayOdd := getMondayOfWeek today (some "odd")
    highlightPresent := scheduleData.any (fun rm => rm.2) }

/-- Row header resolution (parser.py:183-214): skip short rows and unknown or
empty day labels; pick the row's week type and base Monday from the
highlight logic; the lesson date is the base Monday plus the day offset. -/
def rowMeta (ctx : BuildCtx) (rm : List String × Bool) :
    Option (Nat × WeekType × Int) :=
  match rm.1 with
  | [] => none
  | day0 :: cells =>
    if cells.isEmpty then none
    else
      let dayStr := pyLower (normalizeText day0)
      if dayStr = "" then none
      else
        let wtBase : WeekType × Int :=
          if ctx.highlightPresent then
            if rm.2 then (ctx.currentWeekType, ctx.currentWeekMonday)
            else (ctx.nextWeekType, ctx.nextWeekMonday)
          else if rm.2 then (.odd, ctx.mondayOdd)
          else (.even, ctx.mondayEven)
        match dayMapping ⟨dayStr.data.take 3⟩ with
        | none => none
        | some dow => some (dow, wtBase.1, wtBase.2 + ((dow : Int) - 1))

/-- The per-cell body of the inner loop (parser.py:217-279): skip empty or
placeholder cells, cells whose parsed name is empty, and period numbers
outside the bell table; otherwise build the `Lesson`. -/
def cellLesson (gid : Nat) (dow : Nat) (wt : WeekType) (ldate : Int)
    (num : Nat) (cell : String) : Option Lesson :=
  if cell = "" || pyStrip cell = "_" || pyStrip cell = "" then none
  else
    let info := parseLessonInfo cell
    if info.name = "" then none
    else
      match lessonTimes num with
      | none => none
      | some (startT, endT) =>
        some { group_id := gid, name := info.name, lesson_date := ldate,
               day_of_week := dow, lesson_number := num,
               start_time := startT, end_time := endT, week_type := wt,
               teacher_name :=
                 if info.teachers.isEmpty then none
                 else some (joinSemicolon info.teachers),
               cabinet_number :=
                 if info.cabinets.isEmpty then none
                 else some (joinSemicolon info.cabinets),
               subgroup := info.subgroup,
               lesson_type := info.lesson_type,
               raw_text := some cell }

def rowLessons (gid : Nat) (ctx : BuildCtx) (rm : List String × Bool) : List Lesson :=
  match rowMeta ctx rm with
  | none => []
  | some (dow, wt, ldate) =>
    (List.enumFrom 1 rm.1.tail).filterMap fun p => cellLesson gid dow wt ldate p.1 p.2

/-- `parse_schedule_html` (parser.py:145-300), parameterized by `today`
(`date.today()` in the source).  The source appends each built lesson to
`even_lessons` or `odd_lessons` according to its week type while traversing
rows and cells in order; the two lists are therefore exactly the parity
filters of the traversal-ordered lesson sequence. -/
def parseScheduleHtml (events : List HtmlEvent) (gid : Nat) (today : PyDate) :
    List Lesson × List Lesson :=
  let st := runHtmlParser events
  let sd := getScheduleData st
  let ctx := mkBuildCtx today sd
  let allLessons := sd.flatMap (rowLessons gid ctx)
  (allLessons.filter (fun l => l.week_type = .even),
   allLessons.filter (fun l => l.week_type = .odd))

/-! ## Storage and reconciliation engine (parser.py:302-516, db.py)

Storage is a list of persisted lessons plus the audit log
(`schedule_changes`) and the id sequence.  The Apply step of
`compare_and_update_lessons` is embedded as an explicit list of primitive
storage operations, in the exact order the source issues them, executed by a
small-step interpreter inside a transaction.  Failure of any operation is
injected by an oracle `fails : Nat → Bool` on the operation index; the
transaction context manager (`asyncpg`'s `connection.transaction()`,
required by spec §6 as `beginTransaction`/`commit`/`rollback`) rolls the
state back to the snapshot taken at transaction start and re-raises. -/

/-- A JSON-serializable snapshot value, as produced by the dict literals
passed to `log_schedule_change`. -/
inductive SnapVal where
  | s (v : String)
  | n (v : Nat)
  | null
  deriving DecidableEq, Repr

def optStrVal : Option String → SnapVal
  | some v => .s v
  | none => .null

def optNatVal : Option Nat → SnapVal
  | some v => .n v
  | none => .null

/-- The dict written for `new` and for both sides of `update`
(parser.py:407-412, 439-450): name, teacher, subgroup, cabinet. -/
def changeSnap (l : Lesson) : List (String × SnapVal) :=
  [("name", .s l.name), ("teacher", optStrVal l.teacher_name),
   ("subgroup", optNatVal l.subgroup), ("cabinet", optStrVal l.cabinet_number)]

/-- The dict written for `delete` (parser.py:477-481): name, teacher,
subgroup only. -/
def deleteSnap (l : Lesson) : List (String × SnapVal) :=
  [("name", .s l.name), ("teacher", optStrVal l.teacher_name),
   ("subgroup", optNatVal l.subgroup)]

/-- A `schedule_changes` row (db.py:404-439). -/
structure ChangeRecord where
  lesson_id : Option Nat
  change_type : ChangeType
  old_data : Option (List (String × SnapVal)) := none
  new_data : Option (List (String × SnapVal)) := none
  deriving DecidableEq, Repr

/-- One primitive storage operation of the Apply step.  Inserted lessons
carry their id pre-assigned from the sequence (db's `RETURNING LessonId`). -/
inductive StorageOp where
  | insertLesson (l : Lesson)
  | updateLesson (l : Lesson)
  | deleteLesson (id : Option Nat)
  | logChange (id : Option Nat) (ct : ChangeType)
      (old : Option (List (String × SnapVal)))
      (newD : Option (List (String × SnapVal)))
  deriving DecidableEq, Repr

structure DbState where
  lessons : List Lesson
  changeLog : List ChangeRecord
  nextId : Nat
  deriving DecidableEq, Repr

/-- `update_lesson` column set.  Modelled from the spec: db.py of this
snapshot lacks the singular `update_lesson` that parser.py:435 calls; spec
§6 requires `updateLesson(lesson)` ("persist new field values under the
existing identifier"), and the column set is that of its bulk sibling
`update_lessons_bulk` (db.py:305-333): all lesson fields except group,
week type, identifier and creation timestamp. -/
def applyUpdatePatch (p : Lesson) (l : Lesson) : Lesson :=
  { l with name := p.name, lesson_date := p.lesson_date,
           day_of_week := p.day_of_week, lesson_number := p.lesson_number,
           start_time := p.start_time, end_time := p.end_time,
           teacher_name := p.teacher_name, cabinet_number := p.cabinet_number,
           lesson_type := p.lesson_type, subgroup := p.subgroup,
           raw_text := p.raw_text }

/-- `UPDATE ... WHERE LessonId = data.lesson_id` applied to one row; SQL
`= NULL` matches no row. -/
def patchIf (p : Lesson) (l : Lesson) : Lesson :=
  match p.lesson_id with
  | some i => if l.lesson_id = some i then applyUpdatePatch p l else l
  | none => l

/-- The interpreter for one storage operation.  SQL `WHERE LessonId = NULL`
matches no row, hence the `none` cases. -/
def execOp (st : DbState) : StorageOp → DbState
  | .insertLesson l => { st with lessons := st.lessons ++ [l], nextId := st.nextId + 1 }
  | .updateLesson p => { st with lessons := st.lessons.map (patchIf p) }
  | .deleteLesson id =>
    { st with lessons :=
        match id with
        | some i => st.lessons.filter (fun l => l.lesson_id ≠ some i)
        | none => st.lessons }
  | .logChange id ct old newD =>
    { st with changeLog := st.changeLog ++ [⟨id, ct, old, newD⟩] }

/-- Stable sort by `(DayOfWeek, LessonNumber)` — `ORDER BY` of
`get_existing_lessons` (db.py:118-126); ties keep stored order. -/
def lessonLE (a b : Lesson) : Bool :=
  a.day_of_week < b.day_of_week
    || (a.day_of_week = b.day_of_week && a.lesson_number ≤ b.lesson_number)

def insertSorted (x : Lesson) : List Lesson → List Lesson
  | [] => [x]
  | y :: t => if lessonLE y x then y :: insertSorted x t else x :: y :: t

def sortLessons (ls : List Lesson) : List Lesson :=
  ls.foldl (fun acc x => insertSorted x acc) []

/-- `get_existing_lessons` (db.py:98-156): the stored lessons of one
(group, parity), ordered. -/
def getExistingLessons (st : DbState) (gid : Nat) (wt : WeekType) : List Lesson :=
  sortLessons (st.lessons.filter fun l => l.group_id = gid && l.week_type = wt)

/-- The natural key used by both comparison maps (parser.py:346-354). -/
def lessonKey (l : Lesson) : Nat × Nat × Option Nat :=
  (l.day_of_week, l.lesson_number, l.subgroup)

/-- Python dict insert-or-overwrite: an existing key keeps its position and
takes the new value; a new key is appended. -/
def upsert {α β : Type} [DecidableEq α] : List (α × β) → α → β → List (α × β)
  | [], k, v => [(k, v)]
  | (k', v') :: t, k, v =>
    if k = k' then (k, v) :: t else (k', v') :: upsert t k v

/-- A Python dict built from a pair sequence (`{f(x) for x in xs}`-style
comprehension): later pairs overwrite earlier ones in place. -/
def pyDict {α β : Type} [DecidableEq α] (ps : List (α × β)) : List (α × β) :=
  ps.foldl (fun acc p => upsert acc p.1 p.2) []

def lookupA {α β : Type} [DecidableEq α] (m : List (α × β)) (k : α) : Option β :=
  (m.find? fun p => p.1 = k).map (·.2)

/-- The three queues computed by the Compare stage (parser.py:341-372). -/
structure ComparePlan where
  toInsert : List Lesson
  toUpdate : List (Lesson × Lesson)
  toDelete : List Lesson
  deriving DecidableEq, Repr

/-- Compare (parser.py:345-372): keyed maps on both sides; keys only in the
new map are inserts, keys on both sides with unequal lessons are updates
(the new lesson takes over the persisted identifier), keys only in the
existing map are deletes.  The source accumulates `to_insert`/`to_update` in
one pass over `new_map.items()`; collecting them by two passes preserves
content and order. -/
def buildPlan (existing newLessons : List Lesson) : ComparePlan :=
  let existingMap := pyDict (existing.map fun l => (lessonKey l, l))
  let newMap := pyDict (newLessons.map fun l => (lessonKey l, l))
  { toInsert := newMap.filterMap fun p =>
      match lookupA existingMap p.1 with
      | none => some p.2
      | some _ => none
    toUpdate := newMap.filterMap fun p =>
      match lookupA existingMap p.1 with
      | none => none
      | some e =>
        if eqLesson e p.2 then none
        else some (e, { p.2 with lesson_id := e.lesson_id })
    toDelete := existingMap.filterMap fun p =>
      match lookupA newMap p.1 with
      | none => some p.2
      | some _ => none }

/-- Insert phase (parser.py:395-424): per lesson, an insert (obtaining the
next sequence id, modelled as consecutive ids from the sequence counter)
followed by its `new` change record. -/
def insertOps (startId : Nat) : List Lesson → List StorageOp
  | [] => []
  | l :: rest =>
    .insertLesson { l with lesson_id := some startId }
      :: .logChange (some startId) .new none (some (changeSnap l))
      :: insertOps (startId + 1) rest

/-- Update phase (parser.py:426-462): per pair, the update under the
existing identifier followed by its `update` change record with old and new
snapshots. -/
def updateOps (toUpd : List (Lesson × Lesson)) : List StorageOp :=
  toUpd.flatMap fun p =>
    [.updateLesson p.2,
     .logChange p.1.lesson_id .update (some (changeSnap p.1)) (some (changeSnap p.2))]

/-- Delete phase (parser.py:464-495): per lesson, the `delete` change record
is written first, then the row is removed. -/
def deleteOps (toDel : List Lesson) : List StorageOp :=
  toDel.flatMap fun e =>
    [.logChange e.lesson_id .delete (some (deleteSnap e)) none,
     .deleteLesson e.lesson_id]

def planOps (startId : Nat) (plan : ComparePlan) : List StorageOp :=
  insertOps startId plan.toInsert ++ updateOps plan.toUpdate ++ deleteOps plan.toDelete

/-- Run the operations of one transaction.  `orig` is the state at
transaction start; a failing operation aborts and the transaction rolls back
to `orig` (`Bool` = committed). -/
def runTxAux (orig : DbState) (fails : Nat → Bool) :
    DbState → List StorageOp → Nat → DbState × Bool
  | cur, [], _ => (cur, true)
  | cur, op :: rest, i =>
    if fails i then (orig, false)
    else runTxAux orig fails (execOp cur op) rest (i + 1)

/-- `compare_and_update_lessons` (parser.py:302-516): Compare (read-only),
then Apply inside one transaction.  Returns the post-transaction state, the
commit flag, and the `(added, updated, deleted)` counts (the counts are only
returned on commit; on abort the exception propagates and no counts are
observable — the zeros are placeholders under `committed = false`). -/
def compareAndUpdateLessons (st : DbState) (gid : Nat) (newLessons : List Lesson)
    (wt : WeekType) (fails : Nat → Bool) : DbState × Bool × Nat × Nat × Nat :=
  let existing := getExistingLessons st gid wt
  let plan := buildPlan existing newLessons
  let ops := planOps st.nextId plan
  let r := runTxAux st fails st ops 0
  if r.2 then
    (r.1, true, plan.toInsert.length, plan.toUpdate.length, plan.toDelete.length)
  else (r.1, false, 0, 0, 0)

def noFail : Nat → Bool := fun _ => false

/-- The storage part of `parse_group` (parser.py:550-560): build both parity
collections from the fetched page, then reconcile even and odd in turn on
one connection (each call its own transaction; no failures injected). -/
def runPipelineOnce (st : DbState) (gid : Nat) (events : List HtmlEvent)
    (today : PyDate) : DbState × (Nat × Nat × Nat) × (Nat × Nat × Nat) :=
  let p := parseScheduleHtml events gid today
  let r1 := compareAndUpdateLessons st gid p.1 .even noFail
  let r2 := compareAndUpdateLessons r1.1 gid p.2 .odd noFail
  (r2.1, r1.2.2, r2.2.2)

/-! ### Shared concrete fixtures -/

/-- A representative persisted lesson (group 1, even week, slot (1,1)). -/
def fixLesson : Lesson :=
  { group_id := 1, name := "Математика", lesson_date := 739530, day_of_week := 1,
    lesson_number := 1, start_time := ⟨9, 0⟩, end_time := ⟨10, 35⟩,
    week_type := .even, teacher_name := some "ИВАНОВ И.И.", lesson_id := some 7 }

/-! ### C2: apply-step atomicity -/

/-- A transaction that aborts rolls the state back to its start snapshot. -/
theorem runTxAux_abort (orig : DbState) (fails : Nat → Bool) :
    ∀ (ops : List StorageOp) (cur : DbState) (i : Nat),
      (runTxAux orig fails cur ops i).2 = false →
      (runTxAux orig fails cur ops i).1 = orig := by
  intro ops
  induction ops with
  | nil => intro cur i h; simp [runTxAux] at h
  | cons op rest ih =>
    intro cur i h
    unfold runTxAux at h ⊢
    by_cases hf : fails i
    · simp [hf]
    · simp only [hf, if_false, Bool.false_eq_true] at h ⊢
      exact ih _ _ h

/-- C2: for every storage state, group, new lesson set, parity, and failure
pattern, if the Apply transaction of `compare_and_update_lessons` aborts,
the persisted lesson set and the audit log are exactly as before the pass:
no partial application is observable. -/
theorem c2_apply_atomicity (st : DbState) (gid : Nat) (newLessons : List Lesson)
    (wt : WeekType) (fails : Nat → Bool)
    (habort : (compareAndUpdateLessons st gid newLessons wt fails).2.1 = false) :
    (compareAndUpdateLessons st gid newLessons wt fails).1.lessons = st.lessons ∧
    (compareAndUpdateLessons st gid newLessons wt fails).1.changeLog = st.changeLog := by
  unfold compareAndUpdateLessons at habort ⊢
  set ops := planOps st.nextId
      (buildPlan (getExistingLessons st gid wt) newLessons) with hops
  by_cases h2 : (runTxAux st fails st ops 0).2
  · simp [h2] at habort
  · have hb : (runTxAux st fails st ops 0).2 = false := by
      simpa using h2
    have := runTxAux_abort st fails ops st 0 hb
    simp [hb, this]

theorem c2_apply_atomicity_witness :
    (compareAndUpdateLessons ⟨[fixLesson], [], 8⟩ 1 [] .even (fun _ => true)).1.lessons
        = [fixLesson]
    ∧ (compareAndUpdateLessons ⟨[fixLesson], [], 8⟩ 1 [] .even (fun _ => true)).1.changeLog
        = [] :=
  c2_apply_atomicity ⟨[fixLesson], [], 8⟩ 1 [] .even (fun _ => true) (by decide)

/-! ### C3: delete audit record precedes row removal -/

theorem deleteOps_log_before (toDel : List Lesson) :
    ∀ (j : Nat) (id : Option Nat),
      (deleteOps toDel)[j]? = some (.deleteLesson id) →
      ∃ i, i < j ∧ ∃ old, (deleteOps toDel)[i]? = some (.logChange id .delete old none) := by
  induction toDel with
  | nil => intro j id h; simp [deleteOps] at h
  | cons e t ih =>
    intro j id h
    have hexp : deleteOps (e :: t)
        = .logChange e.lesson_id .delete (some (deleteSnap e)) none
          :: .deleteLesson e.lesson_id :: deleteOps t := by
      simp [deleteOps]
    rw [hexp] at h ⊢
    match j with
    | 0 => simp at h
    | 1 =>
      simp at h
      exact ⟨0, by omega, some (deleteSnap e), by simp [h]⟩
    | (j' + 2) =>
      simp only [List.getElem?_cons_succ] at h
      obtain ⟨i, hi, old, hlog⟩ := ih j' id h
      exact ⟨i + 2, by omega, old, by simpa using hlog⟩

theorem prefix_no_delete_log_before (pre rest : List StorageOp)
    (hpre : ∀ op ∈ pre, ∀ id, op ≠ .deleteLesson id)
    (hrest : ∀ (j : Nat) (id : Option Nat),
      rest[j]? = some (.deleteLesson id) →
      ∃ i, i < j ∧ ∃ old, rest[i]? = some (.logChange id .delete old none)) :
    ∀ (j : Nat) (id : Option Nat),
      (pre ++ rest)[j]? = some (.deleteLesson id) →
      ∃ i, i < j ∧ ∃ old, (pre ++ rest)[i]? = some (.logChange id .delete old none) := by
  induction pre with
  | nil => simpa using hrest
  | cons p pre ih =>
    intro j id h
    match j with
    | 0 =>
      simp at h
      exact absurd h (hpre p (by simp) id)
    | (j' + 1) =>
      simp only [List.cons_append, List.getElem?_cons_succ] at h
      obtain ⟨i, hi, old, hlog⟩ :=
        ih (fun op hop => hpre op (by simp [hop])) j' id h
      exact ⟨i + 1, by omega, old, by simpa using hlog⟩

theorem insertOps_no_delete (n : Nat) (L : List Lesson) :
    ∀ op ∈ insertOps n L, ∀ id, op ≠ .deleteLesson id := by
  induction L generalizing n with
  | nil => simp [insertOps]
  | cons l t ih =>
    intro op hop id
    simp only [insertOps, List.mem_cons] at hop
    rcases hop with h | h | h
    · subst h; intro hc; cases hc
    · subst h; intro hc; cases hc
    · exact ih (n + 1) op h id

theorem updateOps_no_delete (U : List (Lesson × Lesson)) :
    ∀ op ∈ updateOps U, ∀ id, op ≠ .deleteLesson id := by
  intro op hop id
  simp only [updateOps, List.mem_flatMap] at hop
  obtain ⟨p, _, hmem⟩ := hop
  simp only [List.mem_cons, List.not_mem_nil, or_false] at hmem
  rcases hmem with h | h <;> subst h <;> intro hc <;> cases hc

/-- C3: in the operation sequence of every Apply step, a row removal for an
identifier is always strictly preceded by the `delete` change record
referencing that same identifier. -/
theorem c3_delete_record_before_removal (existing newLessons : List Lesson)
    (startId : Nat) (j : Nat) (id : Option Nat)
    (hj : (planOps startId (buildPlan existing newLessons))[j]?
        = some (.deleteLesson id)) :
    ∃ i, i < j ∧ ∃ old, (planOps startId (buildPlan existing newLessons))[i]?
        = some (.logChange id .delete old none) := by
  have hpre : ∀ op ∈ insertOps startId (buildPlan existing newLessons).toInsert
      ++ updateOps (buildPlan existing newLessons).toUpdate,
      ∀ idd, op ≠ .deleteLesson idd := by
    intro op hop idd
    rcases List.mem_append.1 hop with h | h
    · exact insertOps_no_delete _ _ op h idd
    · exact updateOps_no_delete _ op h idd
  have := prefix_no_delete_log_before
    (insertOps startId (buildPlan existing newLessons).toInsert
      ++ updateOps (buildPlan existing newLessons).toUpdate)
    (deleteOps (buildPlan existing newLessons).toDelete)
    hpre (deleteOps_log_before _) j id
  simp only [planOps] at hj ⊢
  exact this hj

theorem c3_delete_record_before_removal_witness :
    ∃ i, i < 1 ∧ ∃ old, (planOps 10 (buildPlan [fixLesson] []))[i]?
        = some (.logChange (some 7) .delete old none) :=
  c3_delete_record_before_removal [fixLesson] [] 10 1 (some 7) (by decide)

/-! ### C9: update audit record contents -/

/-- The persisted lesson of the C9 scenario. -/
def c9Old : Lesson := { fixLesson with lesson_id := some 5 }

/-- The newly built lesson of the C9 scenario: it differs from `c9Old` only
in `start_time` (a change-relevant field under `Lesson.__eq__`). -/
def c9New : Lesson := { fixLesson with lesson_id := none, start_time := ⟨13, 0⟩ }

/-- C9 as frozen is false: an update triggered purely by a start-time change
writes an `update` ChangeRecord whose old and new snapshots carry only name,
teacher, subgroup and cabinet — no start/end time.  Here the two snapshots
are even identical although the lessons differ in a change-relevant field. -/
theorem c9_counterexample :
    (compareAndUpdateLessons ⟨[c9Old], [], 6⟩ 1 [c9New] .even noFail).2.2 = (0, 1, 0)
    ∧ c9Old.start_time ≠ c9New.start_time
    ∧ (compareAndUpdateLessons ⟨[c9Old], [], 6⟩ 1 [c9New] .even noFail).1.changeLog
        = [⟨some 5, .update, some (changeSnap c9Old), some (changeSnap c9New)⟩]
    ∧ changeSnap c9Old = changeSnap c9New
    ∧ (changeSnap c9Old).find? (fun p => p.1 = "start_time") = none
    ∧ (changeSnap c9Old).find? (fun p => p.1 = "end_time") = none := by
  refine ⟨by decide, by decide, by decide, by decide, by decide, by decide⟩

theorem insertOps_no_update_log (n : Nat) (L : List Lesson) :
    ∀ op ∈ insertOps n L, ∀ id old newD,
      op ≠ .logChange id .update old newD := by
  induction L generalizing n with
  | nil => simp [insertOps]
  | cons l t ih =>
    intro op hop id old newD
    simp only [insertOps, List.mem_cons] at hop
    rcases hop with h | h | h
    · subst h; intro hc; cases hc
    · subst h; intro hc; cases hc
    · exact ih (n + 1) op h id old newD

theorem deleteOps_no_update_log (D : List Lesson) :
    ∀ op ∈ deleteOps D, ∀ id old newD,
      op ≠ .logChange id .update old newD := by
  intro op hop id old newD
  simp only [deleteOps, List.mem_flatMap] at hop
  obtain ⟨e, _, hmem⟩ := hop
  simp only [List.mem_cons, List.not_mem_nil, or_false] at hmem
  rcases hmem with h | h <;> subst h <;> intro hc <;> cases hc

/-- C9 (amended): every `update` ChangeRecord written by the Apply step
holds the old and new snapshots of its lesson pair, and those snapshots
cover exactly name, teacher, subgroup and cabinet — start/end time is not
part of the snapshots. -/
theorem c9_update_audit_amended (existing newLessons : List Lesson) (startId : Nat)
    (j : Nat) (id : Option Nat) (old newD : Option (List (String × SnapVal)))
    (hj : (planOps startId (buildPlan existing newLessons))[j]?
        = some (.logChange id .update old newD)) :
    ∃ e n, (e, n) ∈ (buildPlan existing newLessons).toUpdate
      ∧ id = e.lesson_id
      ∧ old = some (changeSnap e) ∧ newD = some (changeSnap n)
      ∧ (changeSnap e).map Prod.fst = ["name", "teacher", "subgroup", "cabinet"]
      ∧ (changeSnap n).map Prod.fst = ["name", "teacher", "subgroup", "cabinet"] := by
  have hmem : StorageOp.logChange id .update old newD
      ∈ planOps startId (buildPlan existing newLessons) := by
    exact List.getElem?_mem hj
  simp only [planOps] at hmem
  rcases List.mem_append.1 hmem with hm | hm
  · rcases List.mem_append.1 hm with hm2 | hm2
    · exact absurd rfl (insertOps_no_update_log _ _ _ hm2 id old newD)
    · simp only [updateOps, List.mem_flatMap] at hm2
      obtain ⟨p, hp, hmem2⟩ := hm2
      simp only [List.mem_cons, List.not_mem_nil, or_false] at hmem2
      rcases hmem2 with h | h
      · cases h
      · cases h
        exact ⟨p.1, p.2, by simpa using hp, rfl, rfl, rfl, rfl, rfl⟩
  · exact absurd rfl (deleteOps_no_update_log _ _ hm id old newD)

theorem c9_update_audit_amended_witness :
    ∃ e n, (e, n) ∈ (buildPlan [c9Old] [c9New]).toUpdate
      ∧ some 5 = e.lesson_id
      ∧ some (changeSnap c9Old) = some (changeSnap e)
      ∧ some (changeSnap c9New) = some (changeSnap n)
      ∧ (changeSnap e).map Prod.fst = ["name", "teacher", "subgroup", "cabinet"]
      ∧ (changeSnap n).map Prod.fst = ["name", "teacher", "subgroup", "cabinet"] :=
  c9_update_audit_amended [c9Old] [c9New] 6 1 (some 5)
    (some (changeSnap c9Old)) (some (changeSnap c9New)) (by decide)

/-! ### C8: extractor behavior at end of input -/

def dataStrings (events : List HtmlEvent) : List String :=
  events.filterMap fun e =>
    match e with
    | .data s => some s
    | _ => none

/-- The only event that can extend the recorded row list. -/
def closesRow : HtmlEvent → Bool
  | .endTag t => pyLower t = "tr"
  | _ => false

theorem fontAttrStep_frame (s : HtmlParserState) (av : String × String) :
    (fontAttrStep s av).rows = s.rows
    ∧ (fontAttrStep s av).current_row = s.current_row
    ∧ (fontAttrStep s av).cell_data = s.cell_data := by
  unfold fontAttrStep
  by_cases h1 : av.1 = "color"
  · by_cases h2 : pyLower av.2 = "#ff00ff"
    · have h3 : ¬ pyLower av.2 = "#0000ff" := by rw [h2]; decide
      simp [h1, h2, h3]
    · by_cases h3 : pyLower av.2 = "#0000ff"
      · simp only [h1, if_true, h2, if_false, h3]
        by_cases h4 : s.in_cell <;> simp [h4]
      · simp [h1, h2, h3]
  · simp [h1]

theorem fontFold_frame (attrs : List (String × String)) :
    ∀ s : HtmlParserState,
      (attrs.foldl fontAttrStep s).rows = s.rows
      ∧ (attrs.foldl fontAttrStep s).current_row = s.current_row
      ∧ (attrs.foldl fontAttrStep s).cell_data = s.cell_data := by
  induction attrs with
  | nil => intro s; simp
  | cons av t ih =>
    intro s
    simp only [List.foldl_cons]
    obtain ⟨h1, h2, h3⟩ := ih (fontAttrStep s av)
    obtain ⟨g1, g2, g3⟩ := fontAttrStep_frame s av
    exact ⟨h1.trans g1, h2.trans g2, h3.trans g3⟩

theorem handleStartTag_frame (st : HtmlParserState) (tag : String)
    (attrs : List (String × String)) :
    (handleStartTag st tag attrs).rows = st.rows
    ∧ ((handleStartTag st tag attrs).current_row = st.current_row
        ∨ (handleStartTag st tag attrs).current_row = [])
    ∧ ((handleStartTag st tag attrs).cell_data = st.cell_data
        ∨ (handleStartTag st tag attrs).cell_data = []) := by
  unfold handleStartTag
  by_cases ht : pyLower tag = "table"
  · simp [ht]
  · by_cases htr : pyLower tag = "tr"
    · by_cases hin : st.in_table <;> simp [ht, htr, hin]
    · by_cases htd : pyLower tag = "td"
      · by_cases hin : st.in_row <;> simp [ht, htr, htd, hin]
      · by_cases hf : pyLower tag = "font"
        · simp only [ht, htr, htd, hf, if_true, if_false]
          exact ⟨(fontFold_frame attrs st).1,
            Or.inl (fontFold_frame attrs st).2.1, Or.inl (fontFold_frame attrs st).2.2⟩
        · simp [ht, htr, htd, hf]

theorem processEvent_rows_eq (st : HtmlParserState) (e : HtmlEvent)
    (h : closesRow e = false) :
    (processEvent st e).rows = st.rows := by
  cases e with
  | startTag t a => exact (handleStartTag_frame st t a).1
  | data s => simp [processEvent, handleData]; split_ifs <;> simp
  | endTag t =>
    simp only [closesRow] at h
    simp only [processEvent, handleEndTag]
    split_ifs with h1 h2 h3 h4 <;> simp_all

theorem foldl_rows_eq (T : List HtmlEvent) (hT : ∀ e ∈ T, closesRow e = false) :
    ∀ st : HtmlParserState, (T.foldl processEvent st).rows = st.rows := by
  induction T with
  | nil => intro st; simp
  | cons e t ih =>
    intro st
    simp only [List.foldl_cons]
    rw [ih (fun x hx => hT x (by simp [hx]))]
    exact processEvent_rows_eq st e (hT e (by simp))

/-- The provenance invariant: everything recorded or accumulated is a
stripped concatenation of some subsequence of the text payloads seen so
far. -/
def Provenance (D : List String) (st : HtmlParserState) : Prop :=
  (∀ row ∈ st.rows, ∀ c ∈ row, ∃ ds, List.Sublist ds D ∧ c = pyStrip (String.join ds))
  ∧ (∀ c ∈ st.current_row, ∃ ds, List.Sublist ds D ∧ c = pyStrip (String.join ds))
  ∧ st.cell_data.Sublist D

theorem Provenance.mono {D D' : List String} {st : HtmlParserState}
    (h : Provenance D st) (hsub : D.Sublist D') : Provenance D' st := by
  obtain ⟨h1, h2, h3⟩ := h
  refine ⟨?_, ?_, h3.trans hsub⟩
  · intro row hrow c hc
    obtain ⟨ds, hds, hcs⟩ := h1 row hrow c hc
    exact ⟨ds, hds.trans hsub, hcs⟩
  · intro c hc
    obtain ⟨ds, hds, hcs⟩ := h2 c hc
    exact ⟨ds, hds.trans hsub, hcs⟩

theorem provenance_step {D : List String} {st : HtmlParserState} (e : HtmlEvent)
    (h : Provenance D st) :
    Provenance (D ++ dataStrings [e]) (processEvent st e) := by
  obtain ⟨h1, h2, h3⟩ := h
  cases e with
  | startTag t a =>
    have hD : dataStrings [HtmlEvent.startTag t a] = [] := rfl
    rw [hD, List.append_nil]
    obtain ⟨f1, f2, f3⟩ := handleStartTag_frame st t a
    refine ⟨by rw [show (processEvent st (.startTag t a)).rows
        = st.rows from f1]; exact h1, ?_, ?_⟩
    · rcases f2 with hcr | hcr <;> rw [show (processEvent st (.startTag t a)).current_row
        = _ from hcr]
      · exact h2
      · simp
    · rcases f3 with hcd | hcd <;> rw [show (processEvent st (.startTag t a)).cell_data
        = _ from hcd]
      · exact h3
      · simp
  | data s =>
    have hD : dataStrings [HtmlEvent.data s] = [s] := rfl
    rw [hD]
    have hsub : D.Sublist (D ++ [s]) := List.sublist_append_left D [s]
    simp only [processEvent, handleData]
    split_ifs with hic
    · refine ⟨?_, ?_, ?_⟩
      · intro row hrow c hc
        obtain ⟨ds, hds, hcs⟩ := h1 row (by simpa using hrow) c hc
        exact ⟨ds, hds.trans hsub, hcs⟩
      · intro c hc
        obtain ⟨ds, hds, hcs⟩ := h2 c (by simpa using hc)
        exact ⟨ds, hds.trans hsub, hcs⟩
      · simpa using h3.append (List.Sublist.refl [s])
    · exact Provenance.mono ⟨h1, h2, h3⟩ hsub
  | endTag t =>
    have hD : dataStrings [HtmlEvent.endTag t] = [] := rfl
    rw [hD, List.append_nil]
    simp only [processEvent, handleEndTag]
    split_ifs with hq1 hq2 hq3 hq4 hq5 <;>
      try exact ⟨h1, h2, h3⟩
    · -- closing </tr> with a nonempty current row: record it
      refine ⟨?_, h2, h3⟩
      intro row hrow c hc
      rcases List.mem_append.1 hrow with hr | hr
      · exact h1 row hr c hc
      · simp only [List.mem_singleton] at hr
        subst hr
        exact h2 c hc
    · -- closing a cell: the accumulated data becomes one cell text
      refine ⟨h1, ?_, by simp⟩
      intro c hc
      rcases List.mem_append.1 hc with hcm | hcm
      · exact h2 c hcm
      · simp only [List.mem_singleton] at hcm
        subst hcm
        exact ⟨st.cell_data, h3, rfl⟩

theorem provenance_run (E : List HtmlEvent) :
    ∀ (st : HtmlParserState) (D : List String), Provenance D st →
      Provenance (D ++ dataStrings E) (E.foldl processEvent st) := by
  induction E with
  | nil => intro st D h; simpa [dataStrings] using h
  | cons e t ih =>
    intro st D h
    simp only [List.foldl_cons]
    have hstep := provenance_step e h
    have := ih (processEvent st e) (D ++ dataStrings [e]) hstep
    have harr : dataStrings (e :: t) = dataStrings [e] ++ dataStrings t := by
      cases e <;> simp [dataStrings]
    rw [harr, ← List.append_assoc]
    exact this

/-- C8 as frozen is false: input ending with a still-open row is *not*
flushed — the accumulated row content is discarded.  After
`<table><tr><td>x</td>` (no `</tr>`), the closed cell `"x"` sits in
`current_row`, but `rows` (and hence `get_schedule_data`) contain nothing. -/
theorem c8_counterexample :
    (runHtmlParser [.startTag "table" [], .startTag "tr" [], .startTag "td" [],
        .data "x", .endTag "td"]).rows = []
    ∧ (runHtmlParser [.startTag "table" [], .startTag "tr" [], .startTag "td" [],
        .data "x", .endTag "td"]).current_row = ["x"] := by
  refine ⟨by decide, by decide⟩

/-- C8 (amended): rows still open at end of input are discarded, not
flushed — the recorded rows are exactly those closed by a `</tr>` in the
input (appending any events that close no row leaves the recorded rows
unchanged) — and no recorded row holds content that did not come from the
input: every recorded cell text is the stripped concatenation of a
subsequence of the input's text payloads. -/
theorem c8_extractor_eof_amended :
    (∀ (E T : List HtmlEvent), (∀ e ∈ T, closesRow e = false) →
        (runHtmlParser (E ++ T)).rows = (runHtmlParser E).rows)
    ∧ (∀ (E : List HtmlEvent), ∀ row ∈ (runHtmlParser E).rows, ∀ c ∈ row,
        ∃ ds, List.Sublist ds (dataStrings E) ∧ c = pyStrip (String.join ds)) := by
  constructor
  · intro E T hT
    unfold runHtmlParser
    rw [List.foldl_append]
    exact foldl_rows_eq T hT _
  · intro E row hrow c hc
    have h0 : Provenance [] ({} : HtmlParserState) := by
      refine ⟨?_, ?_, ?_⟩ <;> simp
    have := provenance_run E {} [] h0
    simp only [List.nil_append] at this
    exact this.1 row hrow c hc

/-! ### C5: key uniqueness of the builder output -/

/-- The resolved `(day_of_week, week parity)` of a schedule row, when the
row is not skipped. -/
def rowDayParity (ctx : BuildCtx) (rm : List String × Bool) : Option (Nat × WeekType) :=
  (rowMeta ctx rm).map fun t => (t.1, t.2.1)

theorem cellLesson_fields (gid dow : Nat) (wt : WeekType) (ldate : Int)
    (num : Nat) (cell : String) (a : Lesson)
    (h : cellLesson gid dow wt ldate num cell = some a) :
    a.lesson_number = num ∧ a.day_of_week = dow ∧ a.week_type = wt
      ∧ a.group_id = gid := by
  simp only [cellLesson] at h
  split at h
  · cases h
  · split at h
    · cases h
    · split at h
      · cases h
      · simp only [Option.some_inj] at h
        subst h
        exact ⟨rfl, rfl, rfl, rfl⟩

theorem cellFilter_num_ge (gid dow : Nat) (wt : WeekType) (ldate : Int) :
    ∀ (m : Nat) (cells : List String) (b : Lesson),
      b ∈ (List.enumFrom m cells).filterMap
          (fun p => cellLesson gid dow wt ldate p.1 p.2) →
      m ≤ b.lesson_number := by
  intro m cells
  induction cells generalizing m with
  | nil => simp [List.enumFrom]
  | cons c t ih =>
    intro b hb
    simp only [List.enumFrom, List.filterMap_cons] at hb
    cases hc : cellLesson gid dow wt ldate m c with
    | none =>
      rw [hc] at hb
      exact Nat.le_of_succ_le (ih (m + 1) b hb)
    | some a =>
      rw [hc] at hb
      rcases List.mem_cons.1 hb with h | h
      · subst h
        exact le_of_eq (cellLesson_fields gid dow wt ldate m c b hc).1.symm
      · exact Nat.le_of_succ_le (ih (m + 1) b h)

theorem cellFilter_pairwise (gid dow : Nat) (wt : WeekType) (ldate : Int) :
    ∀ (m : Nat) (cells : List String),
      ((List.enumFrom m cells).filterMap
          (fun p => cellLesson gid dow wt ldate p.1 p.2)).Pairwise
        (fun a b => a.lesson_number < b.lesson_number) := by
  intro m cells
  induction cells generalizing m with
  | nil => simp [List.enumFrom]
  | cons c t ih =>
    simp only [List.enumFrom, List.filterMap_cons]
    cases hc : cellLesson gid dow wt ldate m c with
    | none => exact ih (m + 1)
    | some a =>
      refine List.Pairwise.cons ?_ (ih (m + 1))
      intro b hb
      have h1 := (cellLesson_fields gid dow wt ldate m c a hc).1
      have h2 := cellFilter_num_ge gid dow wt ldate (m + 1) t b hb
      omega

theorem rowLessons_mem (gid : Nat) (ctx : BuildCtx) (rm : List String × Bool)
    (a : Lesson) (ha : a ∈ rowLessons gid ctx rm) :
    ∃ dow wt ldate, rowMeta ctx rm = some (dow, wt, ldate)
      ∧ a.day_of_week = dow ∧ a.week_type = wt ∧ a.group_id = gid := by
  unfold rowLessons at ha
  cases hm : rowMeta ctx rm with
  | none => rw [hm] at ha; cases ha
  | some t =>
    rw [hm] at ha
    obtain ⟨dow, wt, ldate⟩ := t
    obtain ⟨p, _, hp⟩ := List.mem_filterMap.1 ha
    obtain ⟨_, h2, h3, h4⟩ := cellLesson_fields gid dow wt ldate p.1 p.2 a hp
    exact ⟨dow, wt, ldate, rfl, h2, h3, h4⟩

theorem rowLessons_pairwise (gid : Nat) (ctx : BuildCtx) (rm : List String × Bool) :
    (rowLessons gid ctx rm).Pairwise (fun a b => lessonKey a ≠ lessonKey b) := by
  unfold rowLessons
  cases hm : rowMeta ctx rm with
  | none => simp
  | some t =>
    obtain ⟨dow, wt, ldate⟩ := t
    refine (cellFilter_pairwise gid dow wt ldate 1 rm.1.tail).imp ?_
    intro a b hlt heq
    have : a.lesson_number = b.lesson_number := congrArg (fun k => k.2.1) heq
    omega

theorem pairwise_flatMap_of {α β : Type} {f : β → List α} {R : α → α → Prop} :
    ∀ (l : List β), (∀ x ∈ l, (f x).Pairwise R) →
      l.Pairwise (fun x y => ∀ a ∈ f x, ∀ b ∈ f y, R a b) →
      (l.flatMap f).Pairwise R := by
  intro l
  induction l with
  | nil => intro _ _; simp
  | cons x t ih =>
    intro hall hcross
    simp only [List.flatMap_cons]
    rw [List.pairwise_append]
    obtain ⟨hx, hrest⟩ := List.pairwise_cons.1 hcross
    refine ⟨hall x (by simp), ih (fun y hy => hall y (by simp [hy])) hrest, ?_⟩
    intro a ha b hb
    obtain ⟨y, hy, hby⟩ := List.mem_flatMap.1 hb
    exact hx y hy a ha b hby

/-- C5 as frozen is false: markup whose table repeats a day row within the
same parity produces two lessons with the same `(day, period, subgroup)`
triple in one output list.  Two header rows, then two `Пнд` rows with one
non-empty cell each and no highlight anywhere: both land in the even list
with key `(1, 1, None)`. -/
def c5Events : List HtmlEvent :=
  [.startTag "table" [], .startTag "tr" [], .startTag "td" [], .data "h",
   .endTag "td", .endTag "tr",
   .startTag "tr" [], .startTag "td" [], .data "h", .endTag "td", .endTag "tr",
   .startTag "tr" [], .startTag "td" [], .data "Пнд", .endTag "td",
   .startTag "td" [], .data "Математика", .endTag "td", .endTag "tr",
   .startTag "tr" [], .startTag "td" [], .data "Пнд", .endTag "td",
   .startTag "td" [], .data "Математика", .endTag "td", .endTag "tr",
   .endTag "table"]

theorem c5_counterexample :
    (parseScheduleHtml c5Events 1 ⟨2025, 10, 6⟩).1.map lessonKey
        = [(1, 1, none), (1, 1, none)]
    ∧ ¬ (parseScheduleHtml c5Events 1 ⟨2025, 10, 6⟩).1.Pairwise
        (fun a b => lessonKey a ≠ lessonKey b) := by
  have hmap : (parseScheduleHtml c5Events 1 ⟨2025, 10, 6⟩).1.map lessonKey
      = [(1, 1, none), (1, 1, none)] := by decide
  refine ⟨hmap, ?_⟩
  intro hp
  have h2 : ((parseScheduleHtml c5Events 1 ⟨2025, 10, 6⟩).1.map lessonKey).Pairwise
      (fun a b => a ≠ b) := List.pairwise_map.2 hp
  rw [hmap] at h2
  have := List.pairwise_cons.1 h2
  exact this.1 (1, 1, none) (by simp) rfl

/-- C5 (amended): whenever no two rows of the decoded table resolve to the
same `(day-of-week, parity)` pair, no two lessons within either output list
of `parse_schedule_html` share the `(day_of_week, lesson_number, subgroup)`
triple.  (Duplicate day rows in one parity — as in the counterexample — are
the only way uniqueness can fail.) -/
theorem c5_key_uniqueness_amended (events : List HtmlEvent) (gid : Nat) (today : PyDate)
    (hrows : (getScheduleData (runHtmlParser events)).Pairwise
        (fun r1 r2 =>
          ∀ v1 ∈ rowDayParity (mkBuildCtx today (getScheduleData (runHtmlParser events))) r1,
          ∀ v2 ∈ rowDayParity (mkBuildCtx today (getScheduleData (runHtmlParser events))) r2,
            v1 ≠ v2)) :
    (parseScheduleHtml events gid today).1.Pairwise
        (fun a b => lessonKey a ≠ lessonKey b)
    ∧ (parseScheduleHtml events gid today).2.Pairwise
        (fun a b => lessonKey a ≠ lessonKey b) := by
  set sd := getScheduleData (runHtmlParser events) with hsd
  set ctx := mkBuildCtx today sd with hctx
  have hall : (sd.flatMap (rowLessons gid ctx)).Pairwise
      (fun a b => a.week_type = b.week_type → lessonKey a ≠ lessonKey b) := by
    refine pairwise_flatMap_of sd ?_ ?_
    · intro rm _
      refine (rowLessons_pairwise gid ctx rm).imp ?_
      intro a b hab _
      exact hab
    · refine hrows.imp ?_
      intro r1 r2 hne a ha b hb hwt heq
      obtain ⟨d1, w1, l1, hm1, hd1, hw1, _⟩ := rowLessons_mem gid ctx r1 a ha
      obtain ⟨d2, w2, l2, hm2, hd2, hw2, _⟩ := rowLessons_mem gid ctx r2 b hb
      have hv1 : (d1, w1) ∈ rowDayParity ctx r1 := by
        simp [rowDayParity, hm1]
      have hv2 : (d2, w2) ∈ rowDayParity ctx r2 := by
        simp [rowDayParity, hm2]
      have hdw : (d1, w1) ≠ (d2, w2) := hne _ hv1 _ hv2
      have hdays : a.day_of_week = b.day_of_week := congrArg (fun k => k.1) heq
      apply hdw
      rw [← hd1, ← hw1, ← hd2, ← hw2, hdays, hwt]
  constructor
  · refine ((hall.sublist (List.filter_sublist _)).imp_of_mem ?_)
    intro a b ha hb h
    have hae := (List.mem_filter.1 ha).2
    have hbe := (List.mem_filter.1 hb).2
    exact h (by
      have h1 : a.week_type = .even := by simpa using hae
      have h2 : b.week_type = .even := by simpa using hbe
      rw [h1, h2])
  · refine ((hall.sublist (List.filter_sublist _)).imp_of_mem ?_)
    intro a b ha hb h
    have hae := (List.mem_filter.1 ha).2
    have hbe := (List.mem_filter.1 hb).2
    exact h (by
      have h1 : a.week_type = .odd := by simpa using hae
      have h2 : b.week_type = .odd := by simpa using hbe
      rw [h1, h2])

/-- A well-formed two-day table (no duplicated day in a parity). -/
def c5GoodEvents : List HtmlEvent :=
  [.startTag "table" [], .startTag "tr" [], .startTag "td" [], .data "h",
   .endTag "td", .endTag "tr",
   .startTag "tr" [], .startTag "td" [], .data "h", .endTag "td", .endTag "tr",
   .startTag "tr" [], .startTag "td" [], .data "Пнд", .endTag "td",
   .startTag "td" [], .data "Математика", .endTag "td", .endTag "tr",
   .startTag "tr" [], .startTag "td" [], .data "Втр", .endTag "td",
   .startTag "td" [], .data "Физика", .endTag "td", .endTag "tr",
   .endTag "table"]

theorem c5_key_uniqueness_amended_witness :
    (parseScheduleHtml c5GoodEvents 1 ⟨2025, 10, 6⟩).1.Pairwise
        (fun a b => lessonKey a ≠ lessonKey b)
    ∧ (parseScheduleHtml c5GoodEvents 1 ⟨2025, 10, 6⟩).2.Pairwise
        (fun a b => lessonKey a ≠ lessonKey b) :=
  c5_key_uniqueness_amended c5GoodEvents 1 ⟨2025, 10, 6⟩ (by decide)

/-! ### C1: idempotence of build-and-reconcile

The development below characterizes one reconciliation pass on a storage
state satisfying the database invariants (identifiers present, pairwise
distinct and below the sequence counter) whose `(group, parity)` slice has
pairwise-distinct natural keys, and shows the pass leaves the slice
change-equal to the new lesson set; a second pass with the same input is
then a no-op. -/

def pairsOf (ls : List Lesson) : List ((Nat × Nat × Option Nat) × Lesson) :=
  ls.map fun l => (lessonKey l, l)

/-- The `(group, parity)` slice of the store (unsorted). -/
def relLessons (st : DbState) (g : Nat) (p : WeekType) : List Lesson :=
  st.lessons.filter fun l => l.group_id = g && l.week_type = p

def KeysDistinct (ls : List Lesson) : Prop := (ls.map lessonKey).Nodup

/-- Database invariants guaranteed by the store: every persisted row has an
identifier, identifiers are pairwise distinct (primary key), and the id
sequence is ahead of every persisted identifier. -/
def WellFormedIds (st : DbState) : Prop :=
  (∀ l ∈ st.lessons, ∃ i, l.lesson_id = some i ∧ i < st.nextId)
  ∧ (st.lessons.map Lesson.lesson_id).Nodup

theorem getExistingLessons_eq_sort (st : DbState) (g : Nat) (p : WeekType) :
    getExistingLessons st g p = sortLessons (relLessons st g p) := rfl

section DictLemmas

variable {α β : Type} [DecidableEq α]

theorem upsert_of_not_mem (acc : List (α × β)) (k : α) (v : β)
    (h : k ∉ acc.map Prod.fst) : upsert acc k v = acc ++ [(k, v)] := by
  induction acc with
  | nil => rfl
  | cons q t ih =>
    simp only [List.map_cons, List.mem_cons] at h
    push_neg at h
    simp only [upsert, if_neg (by exact h.1), List.cons_append]
    rw [ih h.2]

theorem upsert_keys (acc : List (α × β)) (k : α) (v : β) :
    (upsert acc k v).map Prod.fst
      = if k ∈ acc.map Prod.fst then acc.map Prod.fst
        else acc.map Prod.fst ++ [k] := by
  induction acc with
  | nil => simp [upsert]
  | cons q t ih =>
    by_cases hk : k = q.1
    · simp [upsert, hk]
    · simp only [upsert, if_neg hk, List.map_cons, ih, List.mem_cons]
      by_cases hm : k ∈ t.map Prod.fst
      · simp [hm, hk]
      · simp [hm, hk]

theorem upsert_mem (acc : List (α × β)) (k : α) (v : β) (p : α × β)
    (h : p ∈ upsert acc k v) : p ∈ acc ∨ p = (k, v) := by
  induction acc with
  | nil => simpa [upsert] using h
  | cons q t ih =>
    by_cases hk : k = q.1
    · simp only [upsert, if_pos hk, List.mem_cons] at h
      rcases h with h | h
      · exact Or.inr h
      · exact Or.inl (List.mem_cons_of_mem _ h)
    · simp only [upsert, if_neg hk, List.mem_cons] at h
      rcases h with h | h
      · exact Or.inl (by simp [h])
      · rcases ih h with h2 | h2
        · exact Or.inl (List.mem_cons_of_mem _ h2)
        · exact Or.inr h2

theorem upsert_keys_nodup (acc : List (α × β)) (k : α) (v : β)
    (h : (acc.map Prod.fst).Nodup) : ((upsert acc k v).map Prod.fst).Nodup := by
  rw [upsert_keys]
  by_cases hm : k ∈ acc.map Prod.fst
  · simpa [hm] using h
  · simp only [hm, if_false]
    rw [List.nodup_append]
    exact ⟨h, List.nodup_singleton k, by simpa using hm⟩

theorem pyDictFold_keys_nodup (ps : List (α × β)) :
    ∀ acc : List (α × β), (acc.map Prod.fst).Nodup →
      ((ps.foldl (fun a p => upsert a p.1 p.2) acc).map Prod.fst).Nodup := by
  induction ps with
  | nil => intro acc hacc; simpa using hacc
  | cons p t ih =>
    intro acc hacc
    simp only [List.foldl_cons]
    exact ih _ (upsert_keys_nodup acc p.1 p.2 hacc)

theorem pyDict_keys_nodup (ps : List (α × β)) :
    ((pyDict ps).map Prod.fst).Nodup :=
  pyDictFold_keys_nodup ps [] (by simp)

theorem pyDictFold_mem (ps : List (α × β)) :
    ∀ (acc : List (α × β)) (p : α × β),
      p ∈ ps.foldl (fun a q => upsert a q.1 q.2) acc → p ∈ acc ∨ p ∈ ps := by
  induction ps with
  | nil => intro acc p hm; exact Or.inl (by simpa using hm)
  | cons q t ih =>
    intro acc p hm
    simp only [List.foldl_cons] at hm
    rcases ih _ p hm with h2 | h2
    · rcases upsert_mem acc q.1 q.2 p h2 with h3 | h3
      · exact Or.inl h3
      · exact Or.inr (by simp [h3])
    · exact Or.inr (List.mem_cons_of_mem _ h2)

theorem pyDict_mem (ps : List (α × β)) (p : α × β) (h : p ∈ pyDict ps) :
    p ∈ ps := by
  rcases pyDictFold_mem ps [] p h with h2 | h2
  · cases h2
  · exact h2

theorem pyDictFold_keys_mem (ps : List (α × β)) (k : α) :
    ∀ acc : List (α × β),
      (k ∈ (ps.foldl (fun a q => upsert a q.1 q.2) acc).map Prod.fst
        ↔ k ∈ acc.map Prod.fst ∨ k ∈ ps.map Prod.fst) := by
  induction ps with
  | nil => intro acc; simp
  | cons q t ih =>
    intro acc
    simp only [List.foldl_cons]
    rw [ih]
    have hk := upsert_keys acc q.1 q.2
    by_cases hm : q.1 ∈ acc.map Prod.fst
    · rw [hk, if_pos hm]
      simp only [List.map_cons, List.mem_cons]
      constructor
      · rintro (h | h)
        · exact Or.inl h
        · exact Or.inr (Or.inr h)
      · rintro (h | h | h)
        · exact Or.inl h
        · exact Or.inl (h ▸ hm)
        · exact Or.inr h
    · rw [hk, if_neg hm]
      simp only [List.map_append, List.mem_append, List.map_cons, List.map_nil,
        List.mem_singleton, List.mem_cons, List.not_mem_nil, or_false]
      tauto

theorem pyDict_keys_mem (ps : List (α × β)) (k : α) :
    k ∈ (pyDict ps).map Prod.fst ↔ k ∈ ps.map Prod.fst := by
  have := pyDictFold_keys_mem ps k []
  simpa using this

theorem pyDictFold_of_nodup_keys (ps : List (α × β)) :
    ∀ acc : List (α × β),
      (∀ k ∈ ps.map Prod.fst, k ∉ acc.map Prod.fst) → (ps.map Prod.fst).Nodup →
      ps.foldl (fun a q => upsert a q.1 q.2) acc = acc ++ ps := by
  induction ps with
  | nil => intro acc _ _; simp
  | cons q t ih =>
    intro acc hdisj hnd
    simp only [List.foldl_cons]
    have hq : q.1 ∉ acc.map Prod.fst := hdisj q.1 (by simp)
    rw [upsert_of_not_mem acc q.1 q.2 hq]
    simp only [List.map_cons, List.nodup_cons] at hnd
    have hstep := ih (acc ++ [(q.1, q.2)])
      (by
        intro k hk
        simp only [List.map_append, List.mem_append, List.map_cons, List.map_nil,
          List.mem_singleton]
        push_neg
        refine ⟨fun hc => hdisj k (by simp [hk]) hc, ?_⟩
        intro hc
        exact hnd.1 (hc ▸ hk))
      hnd.2
    rw [hstep]
    simp

theorem pyDict_of_nodup_keys (ps : List (α × β)) (h : (ps.map Prod.fst).Nodup) :
    pyDict ps = ps := by
  have := pyDictFold_of_nodup_keys ps [] (by simp) h
  simpa using this

theorem lookupA_mem {m : List (α × β)} {k : α} {v : β}
    (h : lookupA m k = some v) : (k, v) ∈ m := by
  unfold lookupA at h
  cases hf : m.find? (fun p => decide (p.1 = k)) with
  | none => rw [hf] at h; cases h
  | some p =>
    rw [hf] at h
    simp only [Option.map_some', Option.some_inj] at h
    have hmem := List.mem_of_find?_eq_some hf
    have hpred := List.find?_some hf
    simp only [decide_eq_true_eq] at hpred
    have hp : p = (k, v) := by
      cases p
      simp_all
    exact hp ▸ hmem

theorem lookupA_eq_some {m : List (α × β)} {k : α} {v : β}
    (hnd : (m.map Prod.fst).Nodup) (h : (k, v) ∈ m) : lookupA m k = some v := by
  induction m with
  | nil => cases h
  | cons q t ih =>
    simp only [List.map_cons, List.nodup_cons] at hnd
    rcases List.mem_cons.1 h with h2 | h2
    · subst h2
      unfold lookupA
      rw [List.find?_cons_of_pos _ (by simp)]
      rfl
    · have hne : ¬ (q.1 = k) := by
        intro hc
        refine hnd.1 ?_
        rw [hc]
        exact List.mem_map.2 ⟨(k, v), h2, rfl⟩
      unfold lookupA at ih ⊢
      rw [List.find?_cons_of_neg _ (by simpa using hne)]
      exact ih hnd.2 h2

theorem lookupA_eq_none {m : List (α × β)} {k : α} :
    lookupA m k = none ↔ k ∉ m.map Prod.fst := by
  unfold lookupA
  rw [Option.map_eq_none', List.find?_eq_none]
  constructor
  · intro h hc
    obtain ⟨p, hp, hpk⟩ := List.mem_map.1 hc
    exact absurd (by simpa using hpk) (by simpa using h p hp)
  · intro h p hp
    simp only [decide_eq_true_eq]
    intro hc
    exact h (List.mem_map.2 ⟨p, hp, hc⟩)

theorem mem_unique_of_nodup_keys {m : List (α × β)} {k : α} {a b : β}
    (hnd : (m.map Prod.fst).Nodup) (ha : (k, a) ∈ m) (hb : (k, b) ∈ m) : a = b := by
  have h1 := lookupA_eq_some hnd ha
  have h2 := lookupA_eq_some hnd hb
  rw [h1] at h2
  exact Option.some_inj.1 h2

end DictLemmas

theorem insertSorted_perm (x : Lesson) (l : List Lesson) :
    (insertSorted x l).Perm (x :: l) := by
  induction l with
  | nil => exact List.Perm.refl _
  | cons y t ih =>
    unfold insertSorted
    by_cases h : lessonLE y x
    · simp only [h, if_true]
      exact (ih.cons y).trans (List.Perm.swap x y t)
    · simp only [h, if_false]
      exact List.Perm.refl _

theorem sortLessons_perm (ls : List Lesson) : (sortLessons ls).Perm ls := by
  suffices hgen : ∀ acc : List Lesson,
      (ls.foldl (fun a x => insertSorted x a) acc).Perm (acc ++ ls) by
    simpa using hgen []
  induction ls with
  | nil => intro acc; simp
  | cons x t ih =>
    intro acc
    simp only [List.foldl_cons]
    refine (ih (insertSorted x acc)).trans ?_
    have h1 : (insertSorted x acc ++ t).Perm ((x :: acc) ++ t) :=
      (insertSorted_perm x acc).append_right t
    refine h1.trans ?_
    simpa using List.perm_middle.symm

/-- The rows an insert phase starting at id `startId` adds to the store. -/
def insRows (startId : Nat) : List Lesson → List Lesson
  | [] => []
  | l :: rest => { l with lesson_id := some startId } :: insRows (startId + 1) rest

/-- The cumulative effect of an update phase on one stored row. -/
def updFold (U : List (Lesson × Lesson)) (l : Lesson) : Lesson :=
  U.foldl (fun acc p => patchIf p.2 acc) l

/-- Whether one stored row survives the delete phase. -/
def keepB (D : List Lesson) (l : Lesson) : Bool :=
  D.all fun e =>
    match e.lesson_id with
    | some i => l.lesson_id ≠ some i
    | none => true

theorem runTxAux_noFail (orig : DbState) :
    ∀ (ops : List StorageOp) (cur : DbState) (i : Nat),
      runTxAux orig noFail cur ops i = (ops.foldl execOp cur, true) := by
  intro ops
  induction ops with
  | nil => intro cur i; rfl
  | cons op rest ih =>
    intro cur i
    unfold runTxAux
    simp only [noFail, Bool.false_eq_true, if_false, List.foldl_cons]
    exact ih (execOp cur op) (i + 1)

theorem insertPhase (L : List Lesson) :
    ∀ (n : Nat) (s : DbState),
      ((insertOps n L).foldl execOp s).lessons = s.lessons ++ insRows n L
      ∧ ((insertOps n L).foldl execOp s).nextId = s.nextId + L.length
      ∧ ((insertOps n L).foldl execOp s).changeLog.length
          = s.changeLog.length + L.length := by
  induction L with
  | nil => intro n s; simp [insertOps, insRows]
  | cons l t ih =>
    intro n s
    simp only [insertOps, List.foldl_cons]
    obtain ⟨h1, h2, h3⟩ := ih (n + 1)
      (execOp (execOp s (.insertLesson { l with lesson_id := some n }))
        (.logChange (some n) .new none (some (changeSnap l))))
    refine ⟨?_, ?_, ?_⟩
    · rw [h1]
      simp [execOp, insRows]
    · rw [h2]
      simp [execOp]
      omega
    · rw [h3]
      simp [execOp]
      omega

theorem updatePhase (U : List (Lesson × Lesson)) :
    ∀ s : DbState,
      ((updateOps U).foldl execOp s).lessons = s.lessons.map (updFold U)
      ∧ ((updateOps U).foldl execOp s).nextId = s.nextId := by
  induction U with
  | nil =>
    intro s
    simp only [updateOps, List.flatMap_nil, List.foldl_nil]
    constructor
    · rw [show updFold [] = fun l => l from rfl]
      simp
    · trivial
  | cons p t ih =>
    intro s
    have hexp : updateOps (p :: t)
        = .updateLesson p.2
          :: .logChange p.1.lesson_id .update (some (changeSnap p.1))
              (some (changeSnap p.2))
          :: updateOps t := by
      simp [updateOps]
    rw [hexp]
    simp only [List.foldl_cons]
    obtain ⟨h1, h2⟩ := ih
      (execOp (execOp s (.updateLesson p.2))
        (.logChange p.1.lesson_id .update (some (changeSnap p.1))
          (some (changeSnap p.2))))
    refine ⟨?_, ?_⟩
    · rw [h1]
      simp only [execOp, List.map_map]
      rfl
    · rw [h2]
      rfl

theorem deletePhase (D : List Lesson) :
    ∀ s : DbState,
      ((deleteOps D).foldl execOp s).lessons = s.lessons.filter (keepB D)
      ∧ ((deleteOps D).foldl execOp s).nextId = s.nextId := by
  induction D with
  | nil =>
    intro s
    simp only [deleteOps, List.flatMap_nil, List.foldl_nil]
    constructor
    · rw [List.filter_congr (fun x _ => show keepB [] x = true from rfl)]
      simp
    · trivial
  | cons e t ih =>
    intro s
    have hexp : deleteOps (e :: t)
        = .logChange e.lesson_id .delete (some (deleteSnap e)) none
          :: .deleteLesson e.lesson_id :: deleteOps t := by
      simp [deleteOps]
    rw [hexp]
    simp only [List.foldl_cons]
    obtain ⟨h1, h2⟩ := ih
      (execOp (execOp s (.logChange e.lesson_id .delete (some (deleteSnap e)) none))
        (.deleteLesson e.lesson_id))
    refine ⟨?_, by rw [h2]; rfl⟩
    rw [h1]
    cases hid : e.lesson_id with
    | none =>
      simp only [execOp, hid]
      refine List.filter_congr ?_
      intro x _
      show keepB t x = keepB (e :: t) x
      simp [keepB, hid]
    | some i =>
      simp only [execOp, hid]
      rw [List.filter_filter]
      refine List.filter_congr ?_
      intro x _
      show (keepB t x && _) = keepB (e :: t) x
      simp only [keepB, List.all_cons, hid]
      rw [Bool.and_comm]

theorem patchIf_frame (p l : Lesson) :
    (patchIf p l).lesson_id = l.lesson_id
    ∧ (patchIf p l).group_id = l.group_id
    ∧ (patchIf p l).week_type = l.week_type := by
  unfold patchIf
  cases p.lesson_id with
  | none => exact ⟨rfl, rfl, rfl⟩
  | some i =>
    by_cases h : l.lesson_id = some i
    · simp only [if_pos h]
      exact ⟨rfl, rfl, rfl⟩
    · simp [h]

theorem patchIf_nontarget (p l : Lesson)
    (h : ∀ i, p.lesson_id = some i → l.lesson_id ≠ some i) : patchIf p l = l := by
  unfold patchIf
  cases hp : p.lesson_id with
  | none => rfl
  | some i => simp [h i hp]

theorem updFold_frame (U : List (Lesson × Lesson)) :
    ∀ l : Lesson,
      (updFold U l).lesson_id = l.lesson_id
      ∧ (updFold U l).group_id = l.group_id
      ∧ (updFold U l).week_type = l.week_type := by
  induction U with
  | nil => intro l; exact ⟨rfl, rfl, rfl⟩
  | cons p t ih =>
    intro l
    have hstep := patchIf_frame p.2 l
    have hrest := ih (patchIf p.2 l)
    exact ⟨hrest.1.trans hstep.1, hrest.2.1.trans hstep.2.1, hrest.2.2.trans hstep.2.2⟩

theorem updFold_nontarget (U : List (Lesson × Lesson)) :
    ∀ l : Lesson,
      (∀ pr ∈ U, ∀ i, pr.2.lesson_id = some i → l.lesson_id ≠ some i) →
      updFold U l = l := by
  induction U with
  | nil => intro l _; rfl
  | cons p t ih =>
    intro l h
    have h1 : patchIf p.2 l = l :=
      patchIf_nontarget p.2 l (h p (by simp))
    show updFold t (patchIf p.2 l) = l
    rw [h1]
    exact ih l (fun pr hpr => h pr (by simp [hpr]))

theorem updFold_append (U1 U2 : List (Lesson × Lesson)) (l : Lesson) :
    updFold (U1 ++ U2) l = updFold U2 (updFold U1 l) := by
  unfold updFold
  exact List.foldl_append _ _ _ _

theorem keepB_true_iff (D : List Lesson) (l : Lesson) :
    keepB D l = true
      ↔ ∀ e ∈ D, ∀ i, e.lesson_id = some i → l.lesson_id ≠ some i := by
  unfold keepB
  rw [List.all_eq_true]
  constructor
  · intro h e he i hei
    have := h e he
    rw [hei] at this
    simpa using this
  · intro h e he
    cases hei : e.lesson_id with
    | none => simp
    | some i => simpa using h e he i hei

theorem eqLesson_set_id (l : Lesson) (v : Option Nat) :
    eqLesson { l with lesson_id := v } l = true := by
  simp [eqLesson]

theorem eqLesson_patch (n e : Lesson) (v : Option Nat) :
    eqLesson (applyUpdatePatch { n with lesson_id := v } e) n = true := by
  simp [eqLesson, applyUpdatePatch]

theorem lessonKey_set_id (l : Lesson) (v : Option Nat) :
    lessonKey { l with lesson_id := v } = lessonKey l := rfl

theorem lessonKey_patch (n e : Lesson) (v : Option Nat) :
    lessonKey (applyUpdatePatch { n with lesson_id := v } e) = lessonKey n := rfl

theorem insRows_mem (L : List Lesson) :
    ∀ (n : Nat) (x : Lesson), x ∈ insRows n L →
      ∃ m l, l ∈ L ∧ x = { l with lesson_id := some m }
        ∧ n ≤ m ∧ m < n + L.length := by
  induction L with
  | nil => intro n x h; cases h
  | cons l t ih =>
    intro n x h
    rcases List.mem_cons.1 h with h2 | h2
    · exact ⟨n, l, by simp, h2, le_refl n, by simp⟩
    · obtain ⟨m, l', hl', hx, hm1, hm2⟩ := ih (n + 1) x h2
      exact ⟨m, l', by simp [hl'], hx, by omega, by simp; omega⟩

theorem insRows_of_mem (L : List Lesson) :
    ∀ (n : Nat) (l : Lesson), l ∈ L →
      ∃ m, n ≤ m ∧ m < n + L.length
        ∧ { l with lesson_id := some m } ∈ insRows n L := by
  induction L with
  | nil => intro n l h; cases h
  | cons q t ih =>
    intro n l h
    rcases List.mem_cons.1 h with h2 | h2
    · subst h2
      exact ⟨n, le_refl n, by simp, by simp [insRows]⟩
    · obtain ⟨m, hm1, hm2, hmem⟩ := ih (n + 1) l h2
      exact ⟨m, by omega, by simp; omega, by simp [insRows, hmem]⟩

theorem insRows_keys (L : List Lesson) :
    ∀ n : Nat, (insRows n L).map lessonKey = L.map lessonKey := by
  induction L with
  | nil => intro n; rfl
  | cons l t ih =>
    intro n
    simp only [insRows, List.map_cons, ih (n + 1)]
    rfl

theorem insRows_ids_nodup (L : List Lesson) :
    ∀ n : Nat, ((insRows n L).map Lesson.lesson_id).Nodup := by
  induction L with
  | nil => intro n; simp [insRows]
  | cons l t ih =>
    intro n
    simp only [insRows, List.map_cons, List.nodup_cons]
    refine ⟨?_, ih (n + 1)⟩
    intro hc
    obtain ⟨x, hx, hid⟩ := List.mem_map.1 hc
    obtain ⟨m, l', _, hxe, hm1, _⟩ := insRows_mem t (n + 1) x hx
    rw [hxe] at hid
    simp at hid
    omega

theorem map_filter_comm {α : Type} (f : α → α) (pred : α → Bool) (l : List α)
    (h : ∀ x ∈ l, pred (f x) = pred x) :
    (l.map f).filter pred = (l.filter pred).map f := by
  induction l with
  | nil => rfl
  | cons x t ih =>
    simp only [List.map_cons, List.filter_cons, h x (by simp)]
    by_cases hp : pred x
    · simp only [hp, if_true, List.map_cons]
      rw [ih (fun y hy => h y (by simp [hy]))]
    · simp only [hp, Bool.false_eq_true, if_false]
      exact ih (fun y hy => h y (by simp [hy]))

theorem pairwise_filterMap_of {α β : Type} {f : β → Option α} {R : α → α → Prop} :
    ∀ l : List β,
      l.Pairwise (fun a b => ∀ x, f a = some x → ∀ y, f b = some y → R x y) →
      (l.filterMap f).Pairwise R := by
  intro l
  induction l with
  | nil => intro _; simp
  | cons b t ih =>
    intro h
    obtain ⟨hb, ht⟩ := List.pairwise_cons.1 h
    simp only [List.filterMap_cons]
    cases hf : f b with
    | none => exact ih ht
    | some x =>
      refine List.Pairwise.cons ?_ (ih ht)
      intro y hy
      obtain ⟨b', hb', hfy⟩ := List.mem_filterMap.1 hy
      exact hb b' hb' x hf y hfy

theorem pairsOf_fst (ls : List Lesson) :
    (pairsOf ls).map Prod.fst = ls.map lessonKey := by
  simp [pairsOf]

theorem pairsOf_mem {ls : List Lesson} {k : Nat × Nat × Option Nat} {v : Lesson} :
    (k, v) ∈ pairsOf ls ↔ v ∈ ls ∧ k = lessonKey v := by
  unfold pairsOf
  rw [List.mem_map]
  constructor
  · rintro ⟨l, hl, heq⟩
    have h1 : lessonKey l = k := congrArg Prod.fst heq
    have h2 : l = v := congrArg Prod.snd heq
    subst h2
    exact ⟨hl, h1.symm⟩
  · rintro ⟨hv, hk⟩
    exact ⟨v, hv, by rw [hk]⟩

theorem exist_perm_rel (st : DbState) (g : Nat) (p : WeekType) :
    (getExistingLessons st g p).Perm (relLessons st g p) :=
  sortLessons_perm _

theorem exist_keys_nodup (st : DbState) (g : Nat) (p : WeekType)
    (hkd : KeysDistinct (relLessons st g p)) :
    ((getExistingLessons st g p).map lessonKey).Nodup :=
  (((exist_perm_rel st g p).map lessonKey).nodup_iff).2 hkd

theorem ME_eq (st : DbState) (g : Nat) (p : WeekType)
    (hkd : KeysDistinct (relLessons st g p)) :
    pyDict (pairsOf (getExistingLessons st g p))
      = pairsOf (getExistingLessons st g p) := by
  apply pyDict_of_nodup_keys
  rw [pairsOf_fst]
  exact exist_keys_nodup st g p hkd

theorem buildPlan_toInsert_mem (st : DbState) (g : Nat) (p : WeekType)
    (N : List Lesson) {n : Lesson}
    (hn : n ∈ (buildPlan (getExistingLessons st g p) N).toInsert) :
    n ∈ N ∧ (lessonKey n, n) ∈ pyDict (pairsOf N)
      ∧ lessonKey n ∉ (relLessons st g p).map lessonKey := by
  obtain ⟨q, hq, hf⟩ := List.mem_filterMap.1 hn
  rw [show List.map (fun l => (lessonKey l, l)) N = pairsOf N from rfl] at hq
  rw [show List.map (fun l => (lessonKey l, l)) (getExistingLessons st g p)
      = pairsOf (getExistingLessons st g p) from rfl] at hf
  cases hl : lookupA (pyDict (pairsOf (getExistingLessons st g p))) q.1 with
  | some e =>
    rw [hl] at hf
    dsimp only at hf
    cases hf
  | none =>
    rw [hl] at hf
    dsimp only at hf
    simp only [Option.some_inj] at hf
    subst hf
    have hqmem : (q.1, q.2) ∈ pairsOf N := pyDict_mem _ _ (by simpa using hq)
    have hq1 : q.2 ∈ N ∧ q.1 = lessonKey q.2 := pairsOf_mem.1 hqmem
    have hnotin : q.1 ∉ (pairsOf (getExistingLessons st g p)).map Prod.fst := by
      have := lookupA_eq_none.1 hl
      intro hc
      exact this ((pyDict_keys_mem _ _).2 hc)
    rw [pairsOf_fst] at hnotin
    refine ⟨hq1.1, by rw [← hq1.2]; simpa using hq, ?_⟩
    rw [← hq1.2]
    intro hc
    apply hnotin
    obtain ⟨l, hl2, hl3⟩ := List.mem_map.1 hc
    have := ((exist_perm_rel st g p).mem_iff).2 hl2
    exact List.mem_map.2 ⟨l, this, hl3⟩

theorem buildPlan_toUpdate_mem (st : DbState) (g : Nat) (p : WeekType)
    (N : List Lesson) (hkd : KeysDistinct (relLessons st g p)) {pr : Lesson × Lesson}
    (hpr : pr ∈ (buildPlan (getExistingLessons st g p) N).toUpdate) :
    pr.1 ∈ relLessons st g p
      ∧ ∃ n, (lessonKey pr.1, n) ∈ pyDict (pairsOf N)
          ∧ eqLesson pr.1 n = false
          ∧ pr.2 = { n with lesson_id := pr.1.lesson_id } := by
  obtain ⟨q, hq, hf⟩ := List.mem_filterMap.1 hpr
  rw [show List.map (fun l => (lessonKey l, l)) N = pairsOf N from rfl] at hq
  rw [show List.map (fun l => (lessonKey l, l)) (getExistingLessons st g p)
      = pairsOf (getExistingLessons st g p) from rfl] at hf
  cases hl : lookupA (pyDict (pairsOf (getExistingLessons st g p))) q.1 with
  | none => rw [hl] at hf; cases hf
  | some e =>
    rw [hl] at hf
    dsimp only at hf
    by_cases heq : eqLesson e q.2
    · rw [if_pos heq] at hf; cases hf
    · rw [if_neg heq] at hf
      simp only [Option.some_inj] at hf
      have hepair : (q.1, e) ∈ pairsOf (getExistingLessons st g p) := by
        have := lookupA_mem (m := pyDict (pairsOf (getExistingLessons st g p))) hl
        exact pyDict_mem _ _ this
      have he : e ∈ getExistingLessons st g p ∧ q.1 = lessonKey e :=
        pairsOf_mem.1 hepair
      have hrel : e ∈ relLessons st g p := ((exist_perm_rel st g p).mem_iff).1 he.1
      subst hf
      refine ⟨hrel, q.2, ?_, by simpa using heq, rfl⟩
      rw [← he.2]
      simpa using hq

theorem buildPlan_toDelete_mem (st : DbState) (g : Nat) (p : WeekType)
    (N : List Lesson) (hkd : KeysDistinct (relLessons st g p)) {e : Lesson}
    (he : e ∈ (buildPlan (getExistingLessons st g p) N).toDelete) :
    e ∈ relLessons st g p ∧ lessonKey e ∉ N.map lessonKey := by
  obtain ⟨q, hq, hf⟩ := List.mem_filterMap.1 he
  rw [show List.map (fun l => (lessonKey l, l)) (getExistingLessons st g p)
      = pairsOf (getExistingLessons st g p) from rfl] at hq
  rw [show List.map (fun l => (lessonKey l, l)) N = pairsOf N from rfl] at hf
  cases hl : lookupA (pyDict (pairsOf N)) q.1 with
  | some n => rw [hl] at hf; cases hf
  | none =>
    rw [hl] at hf
    dsimp only at hf
    simp only [Option.some_inj] at hf
    subst hf
    have hqpair : (q.1, q.2) ∈ pairsOf (getExistingLessons st g p) :=
      pyDict_mem _ _ (by simpa using hq)
    have hq1 : q.2 ∈ getExistingLessons st g p ∧ q.1 = lessonKey q.2 :=
      pairsOf_mem.1 hqpair
    refine ⟨((exist_perm_rel st g p).mem_iff).1 hq1.1, ?_⟩
    rw [← hq1.2]
    intro hc
    have h2 : q.1 ∈ (pairsOf N).map Prod.fst := by
      rw [pairsOf_fst]; exact hc
    exact (lookupA_eq_none.1 hl) ((pyDict_keys_mem _ _).2 h2)

theorem newMap_pair_form (N : List Lesson) {q : (Nat × Nat × Option Nat) × Lesson}
    (h : q ∈ pyDict (pairsOf N)) : q.2 ∈ N ∧ q.1 = lessonKey q.2 :=
  pairsOf_mem.1 (by rw [Prod.mk.eta]; exact pyDict_mem _ _ h)

theorem newMap_pairwise_fst (N : List Lesson) :
    (pyDict (pairsOf N)).Pairwise (fun a b => a.1 ≠ b.1) :=
  List.pairwise_map.1 (pyDict_keys_nodup (pairsOf N))

theorem buildPlan_toInsert_keys_nodup (st : DbState) (g : Nat) (p : WeekType)
    (N : List Lesson) :
    (((buildPlan (getExistingLessons st g p) N).toInsert).map lessonKey).Nodup := by
  apply List.pairwise_map.2
  apply pairwise_filterMap_of
  refine ((newMap_pairwise_fst N).imp_of_mem ?_)
  intro a b ha hb hne x hx y hy
  rw [show List.map (fun l => (lessonKey l, l)) (getExistingLessons st g p)
      = pairsOf (getExistingLessons st g p) from rfl] at hx hy
  have hax : x = a.2 := by
    cases hl : lookupA (pyDict (pairsOf (getExistingLessons st g p))) a.1
    · rw [hl] at hx; dsimp only at hx; simpa using hx.symm
    · rw [hl] at hx; dsimp only at hx; cases hx
  have hby : y = b.2 := by
    cases hl : lookupA (pyDict (pairsOf (getExistingLessons st g p))) b.1
    · rw [hl] at hy; dsimp only at hy; simpa using hy.symm
    · rw [hl] at hy; dsimp only at hy; cases hy
  subst hax hby
  have ha2 := newMap_pair_form N ha
  have hb2 := newMap_pair_form N hb
  rw [← ha2.2, ← hb2.2]
  exact hne

theorem buildPlan_toUpdate_pairwise (st : DbState) (g : Nat) (p : WeekType)
    (N : List Lesson) (hkd : KeysDistinct (relLessons st g p)) :
    ((buildPlan (getExistingLessons st g p) N).toUpdate).Pairwise
      (fun pr qr => lessonKey pr.1 ≠ lessonKey qr.1) := by
  apply pairwise_filterMap_of
  refine ((newMap_pairwise_fst N).imp_of_mem ?_)
  intro a b _ _ hne x hx y hy
  rw [show List.map (fun l => (lessonKey l, l)) (getExistingLessons st g p)
      = pairsOf (getExistingLessons st g p) from rfl] at hx hy
  have hax : lessonKey x.1 = a.1 := by
    cases hl : lookupA (pyDict (pairsOf (getExistingLessons st g p))) a.1 with
    | none => rw [hl] at hx; dsimp only at hx; cases hx
    | some e =>
      rw [hl] at hx
      dsimp only at hx
      by_cases heq : eqLesson e a.2
      · rw [if_pos heq] at hx; cases hx
      · rw [if_neg heq] at hx
        simp only [Option.some_inj] at hx
        have := pairsOf_mem.1 (pyDict_mem _ _ (lookupA_mem hl))
        rw [← hx]
        exact this.2.symm
  have hby : lessonKey y.1 = b.1 := by
    cases hl : lookupA (pyDict (pairsOf (getExistingLessons st g p))) b.1 with
    | none => rw [hl] at hy; dsimp only at hy; cases hy
    | some e =>
      rw [hl] at hy
      dsimp only at hy
      by_cases heq : eqLesson e b.2
      · rw [if_pos heq] at hy; cases hy
      · rw [if_neg heq] at hy
        simp only [Option.some_inj] at hy
        have := pairsOf_mem.1 (pyDict_mem _ _ (lookupA_mem hl))
        rw [← hy]
        exact this.2.symm
  rw [hax, hby]
  exact hne

theorem buildPlan_toInsert_of (st : DbState) (g : Nat) (p : WeekType)
    (N : List Lesson) {k : Nat × Nat × Option Nat} {n : Lesson}
    (hkn : (k, n) ∈ pyDict (pairsOf N))
    (hlook : lookupA (pyDict (pairsOf (getExistingLessons st g p))) k = none) :
    n ∈ (buildPlan (getExistingLessons st g p) N).toInsert := by
  apply List.mem_filterMap.2
  refine ⟨(k, n), by simpa [pairsOf] using hkn, ?_⟩
  rw [show List.map (fun l => (lessonKey l, l)) (getExistingLessons st g p)
      = pairsOf (getExistingLessons st g p) from rfl]
  rw [hlook]

theorem buildPlan_toUpdate_of (st : DbState) (g : Nat) (p : WeekType)
    (N : List Lesson) {k : Nat × Nat × Option Nat} {n e : Lesson}
    (hkn : (k, n) ∈ pyDict (pairsOf N))
    (hlook : lookupA (pyDict (pairsOf (getExistingLessons st g p))) k = some e)
    (hne : eqLesson e n = false) :
    (e, { n with lesson_id := e.lesson_id })
      ∈ (buildPlan (getExistingLessons st g p) N).toUpdate := by
  apply List.mem_filterMap.2
  refine ⟨(k, n), by simpa [pairsOf] using hkn, ?_⟩
  rw [show List.map (fun l => (lessonKey l, l)) (getExistingLessons st g p)
      = pairsOf (getExistingLessons st g p) from rfl]
  rw [hlook]
  dsimp only
  rw [if_neg (by simp [hne])]

theorem buildPlan_toDelete_of (st : DbState) (g : Nat) (p : WeekType)
    (N : List Lesson) (hkd : KeysDistinct (relLessons st g p)) {l : Lesson}
    (hl : l ∈ relLessons st g p) (hkey : lessonKey l ∉ N.map lessonKey) :
    l ∈ (buildPlan (getExistingLessons st g p) N).toDelete := by
  apply List.mem_filterMap.2
  have hE : l ∈ getExistingLessons st g p := ((exist_perm_rel st g p).mem_iff).2 hl
  have hpair : (lessonKey l, l) ∈ pairsOf (getExistingLessons st g p) :=
    pairsOf_mem.2 ⟨hE, rfl⟩
  have hME : (lessonKey l, l) ∈ pyDict (pairsOf (getExistingLessons st g p)) := by
    rw [ME_eq st g p hkd]
    exact hpair
  refine ⟨(lessonKey l, l), by simpa [pairsOf] using hME, ?_⟩
  rw [show List.map (fun q => (lessonKey q, q)) N = pairsOf N from rfl]
  have hlook : lookupA (pyDict (pairsOf N)) (lessonKey l) = none := by
    rw [lookupA_eq_none]
    intro hc
    apply hkey
    have := (pyDict_keys_mem (pairsOf N) (lessonKey l)).1 hc
    rwa [pairsOf_fst] at this
  rw [hlook]

theorem keepB_congr_id (D : List Lesson) {l l' : Lesson}
    (h : l.lesson_id = l'.lesson_id) : keepB D l = keepB D l' := by
  unfold keepB
  induction D with
  | nil => rfl
  | cons e t ih =>
    simp only [List.all_cons, ih]
    cases e.lesson_id <;> simp [h]

/-- A lesson queued for deletion does not survive the delete phase. -/
theorem keepB_self_false (D : List Lesson) {l : Lesson}
    (hl : l ∈ D) (hid : ∃ i, l.lesson_id = some i) : keepB D l = false := by
  obtain ⟨i, hi⟩ := hid
  by_contra hc
  have ht : keepB D l = true := by
    cases hk : keepB D l
    · exact absurd hk hc
    · rfl
  exact (keepB_true_iff D l).1 ht l hl i hi hi

/-- Shape of a non-failing pass: it commits, reports the queue lengths, and
its effect on the store is insert-then-update-then-delete. -/
theorem pass_shape (st : DbState) (g : Nat) (p : WeekType) (N : List Lesson) :
    (compareAndUpdateLessons st g N p noFail).2.1 = true
    ∧ (compareAndUpdateLessons st g N p noFail).2.2
        = ((buildPlan (getExistingLessons st g p) N).toInsert.length,
           (buildPlan (getExistingLessons st g p) N).toUpdate.length,
           (buildPlan (getExistingLessons st g p) N).toDelete.length)
    ∧ (compareAndUpdateLessons st g N p noFail).1.lessons
        = ((st.lessons
              ++ insRows st.nextId (buildPlan (getExistingLessons st g p) N).toInsert).map
            (updFold (buildPlan (getExistingLessons st g p) N).toUpdate)).filter
          (keepB (buildPlan (getExistingLessons st g p) N).toDelete)
    ∧ (compareAndUpdateLessons st g N p noFail).1.nextId
        = st.nextId + (buildPlan (getExistingLessons st g p) N).toInsert.length := by
  simp only [compareAndUpdateLessons, runTxAux_noFail, if_true]
  set plan := buildPlan (getExistingLessons st g p) N with hplan
  have hfold : (planOps st.nextId plan).foldl execOp st
      = ((deleteOps plan.toDelete).foldl execOp
          ((updateOps plan.toUpdate).foldl execOp
            ((insertOps st.nextId plan.toInsert).foldl execOp st))) := by
    unfold planOps
    rw [List.foldl_append, List.foldl_append]
  rw [hfold]
  obtain ⟨hi1, hi2, _⟩ := insertPhase plan.toInsert st.nextId st
  obtain ⟨hu1, hu2⟩ := updatePhase plan.toUpdate
    ((insertOps st.nextId plan.toInsert).foldl execOp st)
  obtain ⟨hd1, hd2⟩ := deletePhase plan.toDelete
    ((updateOps plan.toUpdate).foldl execOp
      ((insertOps st.nextId plan.toInsert).foldl execOp st))
  refine ⟨trivial, trivial, ?_, ?_⟩
  · rw [hd1, hu1, hi1]
  · rw [hd2, hu2, hi2]

theorem applyUpdatePatch_id (p l : Lesson) :
    (applyUpdatePatch p l).lesson_id = l.lesson_id := rfl

theorem relLessons_mem_iff {st : DbState} {g : Nat} {p : WeekType} {l : Lesson} :
    l ∈ relLessons st g p ↔ l ∈ st.lessons ∧ l.group_id = g ∧ l.week_type = p := by
  unfold relLessons
  rw [List.mem_filter]
  simp

theorem relLessons_sub {st : DbState} {g : Nat} {p : WeekType} {l : Lesson}
    (hl : l ∈ relLessons st g p) : l ∈ st.lessons :=
  (relLessons_mem_iff.1 hl).1

/-- Primary-key injectivity: two persisted rows with the same identifier
coincide. -/
theorem id_inj (st : DbState) (hwf : WellFormedIds st) :
    ∀ a ∈ st.lessons, ∀ b ∈ st.lessons, a.lesson_id = b.lesson_id → a = b := by
  intro a ha b hb h
  exact List.inj_on_of_nodup_map hwf.2 ha hb h

theorem key_inj {ls : List Lesson} (hkd : KeysDistinct ls) :
    ∀ a ∈ ls, ∀ b ∈ ls, lessonKey a = lessonKey b → a = b := by
  unfold KeysDistinct at hkd
  intro a ha b hb h
  exact List.inj_on_of_nodup_map hkd ha hb h

/-- Each update pair reuses the persisted identifier of its existing side. -/
theorem toUpdate_pair_id (st : DbState) (g : Nat) (p : WeekType) (N : List Lesson)
    (hkd : KeysDistinct (relLessons st g p)) {pr : Lesson × Lesson}
    (hpr : pr ∈ (buildPlan (getExistingLessons st g p) N).toUpdate) :
    pr.2.lesson_id = pr.1.lesson_id := by
  obtain ⟨-, n, -, -, h2⟩ := buildPlan_toUpdate_mem st g p N hkd hpr
  rw [h2]

theorem filter_swap {α : Type} (p q : α → Bool) (l : List α) :
    (l.filter p).filter q = (l.filter q).filter p := by
  induction l with
  | nil => rfl
  | cons x t ih =>
    simp only [List.filter_cons]
    by_cases hp : p x <;> by_cases hq : q x <;>
      simp [hp, hq, List.filter_cons, ih]

theorem map_id_of {α : Type} (f : α → α) (l : List α) (h : ∀ x ∈ l, f x = x) :
    l.map f = l := by
  induction l with
  | nil => rfl
  | cons x t ih =>
    simp only [List.map_cons, h x (by simp)]
    rw [ih (fun y hy => h y (by simp [hy]))]

theorem filter_all_of {α : Type} (p : α → Bool) (l : List α)
    (h : ∀ x ∈ l, p x = true) : l.filter p = l :=
  List.filter_eq_self.2 h

theorem filter_none_of {α : Type} (p : α → Bool) (l : List α)
    (h : ∀ x ∈ l, p x = false) : l.filter p = [] := by
  induction l with
  | nil => rfl
  | cons x t ih =>
    simp only [List.filter_cons, h x (by simp)]
    exact ih (fun y hy => h y (by simp [hy]))

/-- If exactly one update pair targets a row's identifier, the update phase
acts on that row as that single patch. -/
theorem updFold_target (U : List (Lesson × Lesson)) :
    ∀ (pr : Lesson × Lesson) (l : Lesson) (i : Nat),
      pr ∈ U → U.Nodup →
      l.lesson_id = some i → pr.2.lesson_id = some i →
      (∀ qr ∈ U, qr.2.lesson_id = some i → qr = pr) →
      updFold U l = applyUpdatePatch pr.2 l := by
  induction U with
  | nil => intro pr l i hmem _ _ _ _; cases hmem
  | cons q t ih =>
    intro pr l i hmem hnd hid hpr2 huni
    rcases List.mem_cons.1 hmem with hq | hq
    · subst hq
      have h1 : patchIf pr.2 l = applyUpdatePatch pr.2 l := by
        unfold patchIf
        rw [hpr2]
        dsimp only
        rw [if_pos hid]
      show updFold t (patchIf pr.2 l) = applyUpdatePatch pr.2 l
      rw [h1]
      apply updFold_nontarget
      intro qr hqr j hj hcon
      rw [applyUpdatePatch_id, hid] at hcon
      have hji : j = i := by
        have := hcon.symm
        simpa using this
      subst hji
      have : qr = pr := huni qr (List.mem_cons_of_mem _ hqr) hj
      subst this
      exact (List.nodup_cons.1 hnd).1 hqr
    · have hqne : q ≠ pr := by
        intro he
        subst he
        exact (List.nodup_cons.1 hnd).1 hq
      have hq2 : patchIf q.2 l = l := by
        apply patchIf_nontarget
        intro j hj hcon
        rw [hid] at hcon
        have hji : j = i := by simpa using hcon.symm
        subst hji
        exact hqne (huni q (by simp) hj)
      show updFold t (patchIf q.2 l) = applyUpdatePatch pr.2 l
      rw [hq2]
      exact ih pr l i hq (List.nodup_cons.1 hnd).2 hid hpr2
        (fun qr hqr hj => huni qr (List.mem_cons_of_mem _ hqr) hj)

theorem toUpdate_nodup (st : DbState) (g : Nat) (p : WeekType) (N : List Lesson)
    (hkd : KeysDistinct (relLessons st g p)) :
    ((buildPlan (getExistingLessons st g p) N).toUpdate).Nodup :=
  (buildPlan_toUpdate_pairwise st g p N hkd).imp (fun h heq => h (by rw [heq]))

theorem toUpdate_unique_id (st : DbState) (g : Nat) (p : WeekType) (N : List Lesson)
    (hwf : WellFormedIds st) (hkd : KeysDistinct (relLessons st g p))
    {pr qr : Lesson × Lesson}
    (hpr : pr ∈ (buildPlan (getExistingLessons st g p) N).toUpdate)
    (hqr : qr ∈ (buildPlan (getExistingLessons st g p) N).toUpdate)
    (hid : qr.1.lesson_id = pr.1.lesson_id) : qr = pr := by
  have h1 := buildPlan_toUpdate_mem st g p N hkd hpr
  have h2 := buildPlan_toUpdate_mem st g p N hkd hqr
  have heq1 : qr.1 = pr.1 :=
    id_inj st hwf qr.1 (relLessons_sub h2.1) pr.1 (relLessons_sub h1.1) hid
  by_contra hne
  have hk := (buildPlan_toUpdate_pairwise st g p N hkd).forall
    (fun a b h => h.symm) hqr hpr hne
  exact hk (by rw [heq1])

/-- Effect of the update phase on a persisted row: either no update targets
it and it is unchanged, or exactly its own update patch applies. -/
theorem updFold_old_row (st : DbState) (g : Nat) (p : WeekType) (N : List Lesson)
    (hwf : WellFormedIds st) (hkd : KeysDistinct (relLessons st g p))
    {l : Lesson} (hl : l ∈ st.lessons) :
    (updFold (buildPlan (getExistingLessons st g p) N).toUpdate l = l
      ∧ ∀ pr ∈ (buildPlan (getExistingLessons st g p) N).toUpdate, pr.1 ≠ l)
    ∨ ∃ pr ∈ (buildPlan (getExistingLessons st g p) N).toUpdate,
        pr.1 = l ∧ updFold (buildPlan (getExistingLessons st g p) N).toUpdate l
          = applyUpdatePatch pr.2 l := by
  by_cases h : ∃ pr ∈ (buildPlan (getExistingLessons st g p) N).toUpdate, pr.1 = l
  · right
    obtain ⟨pr, hpr, hpe⟩ := h
    refine ⟨pr, hpr, hpe, ?_⟩
    obtain ⟨i, hi, _⟩ := hwf.1 l hl
    apply updFold_target _ pr l i hpr (toUpdate_nodup st g p N hkd) hi
    · rw [toUpdate_pair_id st g p N hkd hpr, hpe, hi]
    · intro qr hqr hqid
      apply toUpdate_unique_id st g p N hwf hkd hpr hqr
      have hq1 : qr.1.lesson_id = some i := by
        rw [← toUpdate_pair_id st g p N hkd hqr]
        exact hqid
      rw [hq1, hpe, hi]
  · left
    constructor
    · apply updFold_nontarget
      intro pr hpr i hpi hcon
      have hid : pr.1.lesson_id = l.lesson_id := by
        rw [← toUpdate_pair_id st g p N hkd hpr, hpi, hcon]
      exact h ⟨pr, hpr, id_inj st hwf pr.1
        (relLessons_sub (buildPlan_toUpdate_mem st g p N hkd hpr).1) l hl hid⟩
    · intro pr hpr hpe
      exact h ⟨pr, hpr, hpe⟩

/-- Freshly inserted rows carry identifiers at or above the sequence
counter, which no update pair targets. -/
theorem updFold_fresh_row (st : DbState) (g : Nat) (p : WeekType) (N : List Lesson)
    (hwf : WellFormedIds st) (hkd : KeysDistinct (relLessons st g p))
    {x : Lesson} {m : Nat} (hx : x.lesson_id = some m) (hm : st.nextId ≤ m) :
    updFold (buildPlan (getExistingLessons st g p) N).toUpdate x = x := by
  apply updFold_nontarget
  intro pr hpr i hpi hcon
  obtain ⟨j, hj, hjlt⟩ := hwf.1 pr.1
    (relLessons_sub (buildPlan_toUpdate_mem st g p N hkd hpr).1)
  have hsome : (some j : Option Nat) = some i := by
    rw [← hj, ← toUpdate_pair_id st g p N hkd hpr, hpi]
  have hij : j = i := by simpa using hsome
  rw [hx] at hcon
  have hmi : m = i := by simpa using hcon
  omega

/-- Freshly inserted rows survive the delete phase. -/
theorem keepB_fresh_row (st : DbState) (g : Nat) (p : WeekType) (N : List Lesson)
    (hwf : WellFormedIds st) (hkd : KeysDistinct (relLessons st g p))
    {x : Lesson} {m : Nat} (hx : x.lesson_id = some m) (hm : st.nextId ≤ m) :
    keepB (buildPlan (getExistingLessons st g p) N).toDelete x = true := by
  rw [keepB_true_iff]
  intro e he i hei hcon
  obtain ⟨j, hj, hjlt⟩ := hwf.1 e
    (relLessons_sub (buildPlan_toDelete_mem st g p N hkd he).1)
  have hij : j = i := by rw [hj] at hei; simpa using hei
  rw [hx] at hcon
  have hmi : m = i := by simpa using hcon
  omega

/-- A persisted row whose key reappears among the new lessons survives the
delete phase. -/
theorem keepB_rel_key (st : DbState) (g : Nat) (p : WeekType) (N : List Lesson)
    (hwf : WellFormedIds st) (hkd : KeysDistinct (relLessons st g p))
    {l : Lesson} (hl : l ∈ relLessons st g p)
    (hkey : lessonKey l ∈ N.map lessonKey) :
    keepB (buildPlan (getExistingLessons st g p) N).toDelete l = true := by
  rw [keepB_true_iff]
  intro e he i hei hcon
  obtain ⟨he1, he2⟩ := buildPlan_toDelete_mem st g p N hkd he
  have heq : e = l := id_inj st hwf e (relLessons_sub he1) l (relLessons_sub hl)
    (by rw [hei, hcon])
  subst heq
  exact he2 hkey

/-- A persisted row that survives the delete phase has its key among the new
lessons. -/
theorem surviving_key (st : DbState) (g : Nat) (p : WeekType) (N : List Lesson)
    (hwf : WellFormedIds st) (hkd : KeysDistinct (relLessons st g p))
    {y : Lesson} (hy : y ∈ relLessons st g p)
    (hkeep : keepB (buildPlan (getExistingLessons st g p) N).toDelete y = true) :
    lessonKey y ∈ N.map lessonKey := by
  by_contra hnot
  have hyD := buildPlan_toDelete_of st g p N hkd hy hnot
  obtain ⟨i, hi, _⟩ := hwf.1 y (relLessons_sub hy)
  have hfalse := keepB_self_false
    (buildPlan (getExistingLessons st g p) N).toDelete hyD ⟨i, hi⟩
  rw [hkeep] at hfalse
  cases hfalse

/-- The update phase never changes a persisted row's natural key: an update
patch replaces the row by a new lesson stored under the same key. -/
theorem key_preserved (st : DbState) (g : Nat) (p : WeekType) (N : List Lesson)
    (hwf : WellFormedIds st) (hkd : KeysDistinct (relLessons st g p))
    {y : Lesson} (hy : y ∈ relLessons st g p) :
    lessonKey (updFold (buildPlan (getExistingLessons st g p) N).toUpdate y)
      = lessonKey y := by
  rcases updFold_old_row st g p N hwf hkd (relLessons_sub hy)
    with ⟨h1, -⟩ | ⟨pr, hpr, hpe, hupd⟩
  · rw [h1]
  · rw [hupd]
    obtain ⟨-, n, hn1, -, h2⟩ := buildPlan_toUpdate_mem st g p N hkd hpr
    rw [h2, lessonKey_patch]
    have hk := (newMap_pair_form N hn1).2
    rw [← hk, hpe]

/-- Closed form of the reconciled `(group, parity)` slice after one
non-failing pass. -/
theorem relFinal_eq (st : DbState) (g : Nat) (p : WeekType) (N : List Lesson)
    (hN : ∀ n ∈ N, n.group_id = g ∧ n.week_type = p) :
    relLessons (compareAndUpdateLessons st g N p noFail).1 g p
      = ((relLessons st g p
            ++ insRows st.nextId (buildPlan (getExistingLessons st g p) N).toInsert).map
          (updFold (buildPlan (getExistingLessons st g p) N).toUpdate)).filter
        (keepB (buildPlan (getExistingLessons st g p) N).toDelete) := by
  obtain ⟨-, -, h3, -⟩ := pass_shape st g p N
  unfold relLessons
  rw [h3, filter_swap]
  congr 1
  have hpred : ∀ x ∈ st.lessons
      ++ insRows st.nextId (buildPlan (getExistingLessons st g p) N).toInsert,
      ((fun l : Lesson => l.group_id = g && l.week_type = p)
          (updFold (buildPlan (getExistingLessons st g p) N).toUpdate x))
        = (fun l : Lesson => l.group_id = g && l.week_type = p) x := by
    intro x _
    dsimp only
    rw [(updFold_frame _ x).2.1, (updFold_frame _ x).2.2]
  rw [map_filter_comm _ _ _ hpred]
  congr 1
  rw [List.filter_append]
  congr 1
  apply filter_all_of
  intro x hx
  obtain ⟨m, l, hlI, hxe, -, -⟩ := insRows_mem _ _ x hx
  have hlN := (buildPlan_toInsert_mem st g p N hlI).1
  subst hxe
  simp [(hN l hlN).1, (hN l hlN).2]

/-- Frame: a non-failing pass for `(g, p)` leaves every other
`(group, parity)` slice untouched. -/
theorem pass_frame (st : DbState) (g : Nat) (p : WeekType) (N : List Lesson)
    (hwf : WellFormedIds st) (hkd : KeysDistinct (relLessons st g p))
    (hN : ∀ n ∈ N, n.group_id = g ∧ n.week_type = p)
    (g' : Nat) (q : WeekType) (hne : ¬(g' = g ∧ q = p)) :
    relLessons (compareAndUpdateLessons st g N p noFail).1 g' q
      = relLessons st g' q := by
  obtain ⟨-, -, h3, -⟩ := pass_shape st g p N
  unfold relLessons
  rw [h3, filter_swap]
  have hpred : ∀ x ∈ st.lessons
      ++ insRows st.nextId (buildPlan (getExistingLessons st g p) N).toInsert,
      ((fun l : Lesson => l.group_id = g' && l.week_type = q)
          (updFold (buildPlan (getExistingLessons st g p) N).toUpdate x))
        = (fun l : Lesson => l.group_id = g' && l.week_type = q) x := by
    intro x _
    dsimp only
    rw [(updFold_frame _ x).2.1, (updFold_frame _ x).2.2]
  rw [map_filter_comm _ _ _ hpred, List.filter_append]
  have hins : (insRows st.nextId
      (buildPlan (getExistingLessons st g p) N).toInsert).filter
        (fun l : Lesson => l.group_id = g' && l.week_type = q) = [] := by
    apply filter_none_of
    intro x hx
    obtain ⟨m, l, hlI, hxe, -, -⟩ := insRows_mem _ _ x hx
    have hlN := (buildPlan_toInsert_mem st g p N hlI).1
    subst hxe
    show (decide (l.group_id = g') && decide (l.week_type = q)) = false
    by_cases hg : l.group_id = g'
    · by_cases hw : l.week_type = q
      · exact absurd ⟨by rw [← hg, (hN l hlN).1], by rw [← hw, (hN l hlN).2]⟩ hne
      · simp [hw]
    · simp [hg]
  rw [hins, List.append_nil]
  have hslice : ∀ l : Lesson,
      l ∈ st.lessons.filter (fun l : Lesson => l.group_id = g' && l.week_type = q) →
      l ∈ st.lessons ∧ ¬(l.group_id = g ∧ l.week_type = p) := by
    intro l hl
    have h1 := List.mem_filter.1 hl
    refine ⟨h1.1, ?_⟩
    intro ⟨hg, hw⟩
    have h2 := h1.2
    simp only [Bool.and_eq_true, decide_eq_true_eq] at h2
    exact hne ⟨by rw [← h2.1, hg], by rw [← h2.2, hw]⟩
  have hmap : (st.lessons.filter
      (fun l : Lesson => l.group_id = g' && l.week_type = q)).map
        (updFold (buildPlan (getExistingLessons st g p) N).toUpdate)
      = st.lessons.filter (fun l : Lesson => l.group_id = g' && l.week_type = q) := by
    apply map_id_of
    intro x hx
    obtain ⟨hxl, hxne⟩ := hslice x hx
    apply updFold_nontarget
    intro pr hpr i hpi hcon
    have hid : pr.1.lesson_id = x.lesson_id := by
      rw [← toUpdate_pair_id st g p N hkd hpr, hpi, hcon]
    have hprel := (buildPlan_toUpdate_mem st g p N hkd hpr).1
    have hpx : pr.1 = x :=
      id_inj st hwf pr.1 (relLessons_sub hprel) x hxl hid
    rw [hpx] at hprel
    exact hxne (relLessons_mem_iff.1 hprel).2
  rw [hmap]
  apply filter_all_of
  intro x hx
  obtain ⟨hxl, hxne⟩ := hslice x hx
  rw [keepB_true_iff]
  intro e he i hei hcon
  have heD := buildPlan_toDelete_mem st g p N hkd he
  have hex : e = x :=
    id_inj st hwf e (relLessons_sub heD.1) x hxl (by rw [hei, hcon])
  rw [hex] at heD
  exact hxne (relLessons_mem_iff.1 heD.1).2

/-- After a non-failing pass, every keyed new lesson is represented in the
reconciled slice by a row with the same key and equal payload. -/
theorem pass_post_A (st : DbState) (g : Nat) (p : WeekType) (N : List Lesson)
    (hwf : WellFormedIds st) (hkd : KeysDistinct (relLessons st g p))
    (hN : ∀ n ∈ N, n.group_id = g ∧ n.week_type = p) :
    ∀ k n, (k, n) ∈ pyDict (pairsOf N) →
      ∃ l ∈ relLessons (compareAndUpdateLessons st g N p noFail).1 g p,
        lessonKey l = k ∧ eqLesson l n = true := by
  rw [relFinal_eq st g p N hN]
  intro k n hkn
  have hkform := newMap_pair_form N hkn
  cases hlook : lookupA (pyDict (pairsOf (getExistingLessons st g p))) k with
  | none =>
    have hIns := buildPlan_toInsert_of st g p N hkn hlook
    obtain ⟨m, hm1, hm2, hmem⟩ := insRows_of_mem _ st.nextId n hIns
    refine ⟨{ n with lesson_id := some m }, ?_, ?_, ?_⟩
    · apply List.mem_filter.2
      refine ⟨?_, keepB_fresh_row st g p N hwf hkd rfl hm1⟩
      apply List.mem_map.2
      exact ⟨{ n with lesson_id := some m }, List.mem_append_right _ hmem,
        updFold_fresh_row st g p N hwf hkd rfl hm1⟩
    · rw [lessonKey_set_id]
      exact hkform.2.symm
    · exact eqLesson_set_id n (some m)
  | some e =>
    have hepair : (k, e) ∈ pairsOf (getExistingLessons st g p) :=
      pyDict_mem _ _ (lookupA_mem hlook)
    have he := pairsOf_mem.1 hepair
    have herel : e ∈ relLessons st g p := ((exist_perm_rel st g p).mem_iff).1 he.1
    have heless : e ∈ st.lessons := relLessons_sub herel
    have hkeymem : lessonKey e ∈ N.map lessonKey := by
      refine List.mem_map.2 ⟨n, hkform.1, ?_⟩
      rw [← hkform.2]
      exact he.2
    by_cases heq : eqLesson e n = true
    · have hupd : updFold (buildPlan (getExistingLessons st g p) N).toUpdate e = e := by
        apply updFold_nontarget
        intro pr hpr i hpi hcon
        have hid : pr.1.lesson_id = e.lesson_id := by
          rw [← toUpdate_pair_id st g p N hkd hpr, hpi, hcon]
        have hpe : pr.1 = e := id_inj st hwf pr.1
          (relLessons_sub (buildPlan_toUpdate_mem st g p N hkd hpr).1) e heless hid
        obtain ⟨-, n', hn'1, hn'2, -⟩ := buildPlan_toUpdate_mem st g p N hkd hpr
        rw [hpe] at hn'1 hn'2
        rw [← he.2] at hn'1
        have hnn : n' = n := mem_unique_of_nodup_keys (pyDict_keys_nodup _) hn'1 hkn
        rw [hnn, heq] at hn'2
        cases hn'2
      refine ⟨e, ?_, he.2.symm, heq⟩
      apply List.mem_filter.2
      exact ⟨List.mem_map.2 ⟨e, List.mem_append_left _ herel, hupd⟩,
        keepB_rel_key st g p N hwf hkd herel hkeymem⟩
    · have hne2 : eqLesson e n = false := by
        cases h2 : eqLesson e n
        · rfl
        · exact absurd h2 heq
      have hU := buildPlan_toUpdate_of st g p N hkn hlook hne2
      obtain ⟨i, hei, -⟩ := hwf.1 e heless
      have hupd : updFold (buildPlan (getExistingLessons st g p) N).toUpdate e
          = applyUpdatePatch { n with lesson_id := e.lesson_id } e := by
        apply updFold_target _ (e, { n with lesson_id := e.lesson_id }) e i hU
          (toUpdate_nodup st g p N hkd) hei
        · show ({ n with lesson_id := e.lesson_id } : Lesson).lesson_id = some i
          rw [show ({ n with lesson_id := e.lesson_id } : Lesson).lesson_id
            = e.lesson_id from rfl, hei]
        · intro qr hqr hqid
          apply toUpdate_unique_id st g p N hwf hkd hU hqr
          have hq1 : qr.1.lesson_id = some i := by
            rw [← toUpdate_pair_id st g p N hkd hqr]
            exact hqid
          show qr.1.lesson_id
            = (e, ({ n with lesson_id := e.lesson_id } : Lesson)).1.lesson_id
          rw [hq1]
          exact hei.symm
      refine ⟨applyUpdatePatch { n with lesson_id := e.lesson_id } e, ?_, ?_, ?_⟩
      · apply List.mem_filter.2
        constructor
        · exact List.mem_map.2 ⟨e, List.mem_append_left _ herel, hupd⟩
        · rw [keepB_congr_id _ (applyUpdatePatch_id _ e)]
          exact keepB_rel_key st g p N hwf hkd herel hkeymem
      · rw [lessonKey_patch]
        exact hkform.2.symm
      · exact eqLesson_patch n e e.lesson_id

/-- After a non-failing pass, every row of the reconciled slice carries the
key of one of the new lessons. -/
theorem pass_post_B (st : DbState) (g : Nat) (p : WeekType) (N : List Lesson)
    (hwf : WellFormedIds st) (hkd : KeysDistinct (relLessons st g p))
    (hN : ∀ n ∈ N, n.group_id = g ∧ n.week_type = p) :
    ∀ l ∈ relLessons (compareAndUpdateLessons st g N p noFail).1 g p,
      lessonKey l ∈ N.map lessonKey := by
  rw [relFinal_eq st g p N hN]
  intro x hx
  obtain ⟨hx1, hx2⟩ := List.mem_filter.1 hx
  obtain ⟨y, hy, hyx⟩ := List.mem_map.1 hx1
  rcases List.mem_append.1 hy with hyrel | hyins
  · have hkey : lessonKey x = lessonKey y := by
      rw [← hyx]
      exact key_preserved st g p N hwf hkd hyrel
    rw [hkey]
    apply surviving_key st g p N hwf hkd hyrel
    rw [keepB_congr_id _
      (show y.lesson_id = x.lesson_id by rw [← hyx]; exact (updFold_frame _ y).1.symm)]
    exact hx2
  · obtain ⟨m, l0, hl0, hye, hm1, -⟩ := insRows_mem _ _ y hyins
    have hyy : updFold (buildPlan (getExistingLessons st g p) N).toUpdate y = y :=
      updFold_fresh_row st g p N hwf hkd (by rw [hye]) hm1
    have hxy : x = y := by rw [← hyx, hyy]
    rw [hxy, hye, lessonKey_set_id]
    exact List.mem_map.2 ⟨l0, (buildPlan_toInsert_mem st g p N hl0).1, rfl⟩

/-- After a non-failing pass, the reconciled slice again has pairwise
distinct keys. -/
theorem pass_post_C (st : DbState) (g : Nat) (p : WeekType) (N : List Lesson)
    (hwf : WellFormedIds st) (hkd : KeysDistinct (relLessons st g p))
    (hN : ∀ n ∈ N, n.group_id = g ∧ n.week_type = p) :
    KeysDistinct (relLessons (compareAndUpdateLessons st g N p noFail).1 g p) := by
  rw [relFinal_eq st g p N hN]
  unfold KeysDistinct
  apply List.Nodup.sublist ((List.filter_sublist _).map lessonKey)
  rw [List.map_map]
  have hcongr : (relLessons st g p
        ++ insRows st.nextId (buildPlan (getExistingLessons st g p) N).toInsert).map
      (lessonKey ∘ updFold (buildPlan (getExistingLessons st g p) N).toUpdate)
      = (relLessons st g p
          ++ insRows st.nextId (buildPlan (getExistingLessons st g p) N).toInsert).map
        lessonKey := by
    apply List.map_congr_left
    intro y hy
    show lessonKey (updFold _ y) = lessonKey y
    rcases List.mem_append.1 hy with h | h
    · exact key_preserved st g p N hwf hkd h
    · obtain ⟨m, l0, -, hye, hm1, -⟩ := insRows_mem _ _ y h
      rw [updFold_fresh_row st g p N hwf hkd (by rw [hye]) hm1]
  rw [hcongr, List.map_append, insRows_keys]
  rw [List.nodup_append]
  refine ⟨hkd, buildPlan_toInsert_keys_nodup st g p N, ?_⟩
  intro k hk1 hk2
  obtain ⟨n0, hn0, hkn0⟩ := List.mem_map.1 hk2
  exact (buildPlan_toInsert_mem st g p N hn0).2.2 (by rw [hkn0]; exact hk1)

/-- A non-failing pass preserves the store's identifier invariants. -/
theorem pass_post_WF (st : DbState) (g : Nat) (p : WeekType) (N : List Lesson)
    (hwf : WellFormedIds st) :
    WellFormedIds (compareAndUpdateLessons st g N p noFail).1 := by
  obtain ⟨-, -, h3, h4⟩ := pass_shape st g p N
  constructor
  · intro l hl
    rw [h3] at hl
    obtain ⟨hl1, -⟩ := List.mem_filter.1 hl
    obtain ⟨y, hy, hyx⟩ := List.mem_map.1 hl1
    have hid : l.lesson_id = y.lesson_id := by
      rw [← hyx]
      exact (updFold_frame _ y).1
    rcases List.mem_append.1 hy with h | h
    · obtain ⟨i, hi, hlt⟩ := hwf.1 y h
      exact ⟨i, by rw [hid, hi], by rw [h4]; omega⟩
    · obtain ⟨m, l0, -, hye, hm1, hm2⟩ := insRows_mem _ _ y h
      exact ⟨m, by rw [hid, hye], by rw [h4]; omega⟩
  · rw [h3]
    apply List.Nodup.sublist ((List.filter_sublist _).map Lesson.lesson_id)
    rw [List.map_map]
    have hcongr : (st.lessons
          ++ insRows st.nextId (buildPlan (getExistingLessons st g p) N).toInsert).map
        (Lesson.lesson_id ∘ updFold (buildPlan (getExistingLessons st g p) N).toUpdate)
        = (st.lessons
            ++ insRows st.nextId (buildPlan (getExistingLessons st g p) N).toInsert).map
          Lesson.lesson_id := by
      apply List.map_congr_left
      intro y hy
      exact (updFold_frame _ y).1
    rw [hcongr, List.map_append]
    rw [List.nodup_append]
    refine ⟨hwf.2, insRows_ids_nodup _ _, ?_⟩
    intro a ha1 ha2
    obtain ⟨y1, hy1, he1⟩ := List.mem_map.1 ha1
    obtain ⟨y2, hy2, he2⟩ := List.mem_map.1 ha2
    obtain ⟨i, hi, hlt⟩ := hwf.1 y1 hy1
    obtain ⟨m, l0, -, hye, hm1, -⟩ := insRows_mem _ _ y2 hy2
    have hia : a = some i := by rw [← he1]; exact hi
    have hma : a = some m := by rw [← he2, hye]
    have him : i = m := by
      have := hia.symm.trans hma
      simpa using this
    omega

/-- A pass whose slice already matches the new lessons is a strict no-op:
all three queues are empty, nothing is written, and the counts are zero. -/
theorem pass_zero (st : DbState) (g : Nat) (p : WeekType) (N : List Lesson)
    (hkd : KeysDistinct (relLessons st g p))
    (hA : ∀ k n, (k, n) ∈ pyDict (pairsOf N) →
        ∃ l ∈ relLessons st g p, lessonKey l = k ∧ eqLesson l n = true)
    (hB : ∀ l ∈ relLessons st g p, lessonKey l ∈ N.map lessonKey) :
    compareAndUpdateLessons st g N p noFail = (st, true, 0, 0, 0) := by
  have hI : (buildPlan (getExistingLessons st g p) N).toInsert = [] := by
    rw [List.eq_nil_iff_forall_not_mem]
    intro n hn
    obtain ⟨-, hdict, hnot⟩ := buildPlan_toInsert_mem st g p N hn
    obtain ⟨l, hl, hkey, -⟩ := hA (lessonKey n) n hdict
    exact hnot (List.mem_map.2 ⟨l, hl, hkey⟩)
  have hU : (buildPlan (getExistingLessons st g p) N).toUpdate = [] := by
    rw [List.eq_nil_iff_forall_not_mem]
    intro pr hpr
    obtain ⟨hrel, n, hdict, hne, -⟩ := buildPlan_toUpdate_mem st g p N hkd hpr
    obtain ⟨l, hl, hkey, heq⟩ := hA (lessonKey pr.1) n hdict
    have hlpr : l = pr.1 := key_inj hkd l hl pr.1 hrel hkey
    rw [hlpr] at heq
    rw [heq] at hne
    cases hne
  have hD : (buildPlan (getExistingLessons st g p) N).toDelete = [] := by
    rw [List.eq_nil_iff_forall_not_mem]
    intro e he
    obtain ⟨hrel, hnot⟩ := buildPlan_toDelete_mem st g p N hkd he
    exact hnot (hB e hrel)
  have hops : planOps st.nextId (buildPlan (getExistingLessons st g p) N) = [] := by
    rw [planOps, hI, hU, hD]
    rfl
  simp only [compareAndUpdateLessons]
  rw [hops]
  rw [show runTxAux st noFail st [] 0 = (st, true) from rfl]
  rw [hI, hU, hD]
  simp

/-- Every lesson built by the parser carries the requested group and the
parity of the collection it is returned in. -/
theorem parse_fields (events : List HtmlEvent) (gid : Nat) (today : PyDate) :
    (∀ l ∈ (parseScheduleHtml events gid today).1,
        l.group_id = gid ∧ l.week_type = WeekType.even)
    ∧ ∀ l ∈ (parseScheduleHtml events gid today).2,
        l.group_id = gid ∧ l.week_type = WeekType.odd := by
  constructor
  · intro l hl
    simp only [parseScheduleHtml] at hl
    rw [List.mem_filter] at hl
    obtain ⟨h1, h2⟩ := hl
    obtain ⟨rm, hrm, hmem⟩ := List.mem_flatMap.1 h1
    obtain ⟨dow, wt, ldate, -, -, -, hgid⟩ := rowLessons_mem gid _ rm l hmem
    exact ⟨hgid, by simpa using h2⟩
  · intro l hl
    simp only [parseScheduleHtml] at hl
    rw [List.mem_filter] at hl
    obtain ⟨h1, h2⟩ := hl
    obtain ⟨rm, hrm, hmem⟩ := List.mem_flatMap.1 h1
    obtain ⟨dow, wt, ldate, -, -, -, hgid⟩ := rowLessons_mem gid _ rm l hmem
    exact ⟨hgid, by simpa using h2⟩

def c1Today : PyDate := ⟨2025, 9, 15⟩

/-- A storage state holding two rows with the same natural key
`(day_of_week, lesson_number, subgroup)` for group 1, even parity. -/
def c1DupState : DbState :=
  { lessons := [{ fixLesson with lesson_id := some 1 },
                { fixLesson with lesson_id := some 2 }],
    changeLog := [], nextId := 3 }

def c1EmptyState : DbState := { lessons := [], changeLog := [], nextId := 1 }

/-- C1 counterexample: on a store holding two rows with the same natural key
(which no constraint in this snapshot rules out), the comparison maps
collapse the duplicate, the first pass deletes only the surviving map entry,
and the second run still reports a deletion — `(0, 0, 1)`, not `(0, 0, 0)`,
from its even pass.  The original claim quantified over every storage
state. -/
theorem c1_counterexample :
    (runPipelineOnce (runPipelineOnce c1DupState 1 [] c1Today).1 1 [] c1Today).2.1
      = (0, 0, 1)
    ∧ (runPipelineOnce (runPipelineOnce c1DupState 1 [] c1Today).1 1 [] c1Today).2.1
      ≠ (0, 0, 0) := by
  constructor
  · decide
  · decide

/-- C1 (amended): build-and-reconcile is idempotent on well-formed stores.
If every persisted row has a distinct identifier below the sequence counter
and the two `(group, parity)` slices have pairwise distinct natural keys,
then running `parse_schedule_html` followed by `compare_and_update_lessons`
for each parity twice in a row on identical fetched HTML, on the same
calendar day with no interleaving writers, yields `(added, updated, deleted)
= (0, 0, 0)` from both calls of the second run, and the second run leaves
the store unchanged. -/
theorem c1_idempotence_amended (st0 : DbState) (gid : Nat)
    (events : List HtmlEvent) (today : PyDate) (hwf : WellFormedIds st0)
    (hke : KeysDistinct (relLessons st0 gid WeekType.even))
    (hko : KeysDistinct (relLessons st0 gid WeekType.odd)) :
    (runPipelineOnce (runPipelineOnce st0 gid events today).1 gid events today).2.1
        = (0, 0, 0)
    ∧ (runPipelineOnce (runPipelineOnce st0 gid events today).1 gid events today).2.2
        = (0, 0, 0)
    ∧ (runPipelineOnce (runPipelineOnce st0 gid events today).1 gid events today).1
        = (runPipelineOnce st0 gid events today).1 := by
  obtain ⟨hN1, hN2⟩ := parse_fields events gid today
  simp only [runPipelineOnce]
  set N1 := (parseScheduleHtml events gid today).1 with hN1d
  set N2 := (parseScheduleHtml events gid today).2 with hN2d
  set st1 := (compareAndUpdateLessons st0 gid N1 WeekType.even noFail).1 with hst1
  set st2 := (compareAndUpdateLessons st1 gid N2 WeekType.odd noFail).1 with hst2
  have hwf1 : WellFormedIds st1 := by
    rw [hst1]
    exact pass_post_WF st0 gid WeekType.even N1 hwf
  have hA1 : ∀ k n, (k, n) ∈ pyDict (pairsOf N1) →
      ∃ l ∈ relLessons st1 gid WeekType.even,
        lessonKey l = k ∧ eqLesson l n = true := by
    rw [hst1]
    exact pass_post_A st0 gid WeekType.even N1 hwf hke hN1
  have hB1 : ∀ l ∈ relLessons st1 gid WeekType.even,
      lessonKey l ∈ N1.map lessonKey := by
    rw [hst1]
    exact pass_post_B st0 gid WeekType.even N1 hwf hke hN1
  have hC1 : KeysDistinct (relLessons st1 gid WeekType.even) := by
    rw [hst1]
    exact pass_post_C st0 gid WeekType.even N1 hwf hke hN1
  have hFrOdd : relLessons st1 gid WeekType.odd = relLessons st0 gid WeekType.odd := by
    rw [hst1]
    exact pass_frame st0 gid WeekType.even N1 hwf hke hN1 gid WeekType.odd
      (fun h => WeekType.noConfusion h.2)
  have hko1 : KeysDistinct (relLessons st1 gid WeekType.odd) := by
    rw [hFrOdd]
    exact hko
  have hA2 : ∀ k n, (k, n) ∈ pyDict (pairsOf N2) →
      ∃ l ∈ relLessons st2 gid WeekType.odd,
        lessonKey l = k ∧ eqLesson l n = true := by
    rw [hst2]
    exact pass_post_A st1 gid WeekType.odd N2 hwf1 hko1 hN2
  have hB2 : ∀ l ∈ relLessons st2 gid WeekType.odd,
      lessonKey l ∈ N2.map lessonKey := by
    rw [hst2]
    exact pass_post_B st1 gid WeekType.odd N2 hwf1 hko1 hN2
  have hC2 : KeysDistinct (relLessons st2 gid WeekType.odd) := by
    rw [hst2]
    exact pass_post_C st1 gid WeekType.odd N2 hwf1 hko1 hN2
  have hFrEven : relLessons st2 gid WeekType.even
      = relLessons st1 gid WeekType.even := by
    rw [hst2]
    exact pass_frame st1 gid WeekType.odd N2 hwf1 hko1 hN2 gid WeekType.even
      (fun h => WeekType.noConfusion h.2)
  have hA1e : ∀ k n, (k, n) ∈ pyDict (pairsOf N1) →
      ∃ l ∈ relLessons st2 gid WeekType.even,
        lessonKey l = k ∧ eqLesson l n = true := by
    rw [hFrEven]
    exact hA1
  have hB1e : ∀ l ∈ relLessons st2 gid WeekType.even,
      lessonKey l ∈ N1.map lessonKey := by
    rw [hFrEven]
    exact hB1
  have hC1e : KeysDistinct (relLessons st2 gid WeekType.even) := by
    rw [hFrEven]
    exact hC1
  have hz1 : compareAndUpdateLessons st2 gid N1 WeekType.even noFail
      = (st2, true, 0, 0, 0) := pass_zero st2 gid WeekType.even N1 hC1e hA1e hB1e
  have hz2 : compareAndUpdateLessons st2 gid N2 WeekType.odd noFail
      = (st2, true, 0, 0, 0) := pass_zero st2 gid WeekType.odd N2 hC2 hA2 hB2
  rw [hz1]
  rw [show ((st2, true, 0, 0, 0) : DbState × Bool × Nat × Nat × Nat).1 = st2 from rfl]
  rw [hz2]
  exact ⟨rfl, rfl, rfl⟩

/-- C1 witness: the amended idempotence theorem applied to the empty store,
whose invariants hold trivially. -/
theorem c1_idempotence_amended_witness :
    WellFormedIds c1EmptyState
    ∧ KeysDistinct (relLessons c1EmptyState 1 WeekType.even)
    ∧ KeysDistinct (relLessons c1EmptyState 1 WeekType.odd)
    ∧ (runPipelineOnce (runPipelineOnce c1EmptyState 1 [] c1Today).1 1 [] c1Today).2.1
        = (0, 0, 0)
    ∧ (runPipelineOnce (runPipelineOnce c1EmptyState 1 [] c1Today).1 1 [] c1Today).2.2
        = (0, 0, 0) := by
  have hwf : WellFormedIds c1EmptyState :=
    ⟨by simp [c1EmptyState], by simp [c1EmptyState]⟩
  have hke : KeysDistinct (relLessons c1EmptyState 1 WeekType.even) := by
    simp [KeysDistinct, relLessons, c1EmptyState]
  have hko : KeysDistinct (relLessons c1EmptyState 1 WeekType.odd) := by
    simp [KeysDistinct, relLessons, c1EmptyState]
  obtain ⟨h1, h2, -⟩ := c1_idempotence_amended c1EmptyState 1 [] c1Today hwf hke hko
  exact ⟨hwf, hke, hko, h1, h2⟩

theorem c8_extractor_eof_amended_witness :
    (runHtmlParser ([.startTag "table" [], .startTag "tr" [], .startTag "td" [],
          .data " x ", .endTag "td", .endTag "tr"]
        ++ [.startTag "tr" [], .startTag "td" [], .data "y"])).rows
      = (runHtmlParser [.startTag "table" [], .startTag "tr" [], .startTag "td" [],
          .data " x ", .endTag "td", .endTag "tr"]).rows
    ∧ ∃ ds, List.Sublist ds (dataStrings [.startTag "table" [], .startTag "tr" [],
          .startTag "td" [], .data " x ", .endTag "td", .endTag "tr"])
        ∧ "x" = pyStrip (String.join ds) :=
  ⟨c8_extractor_eof_amended.1 _ _ (by decide),
   c8_extractor_eof_amended.2 [.startTag "table" [], .startTag "tr" [],
      .startTag "td" [], .data " x ", .endTag "td", .endTag "tr"]
      ["x"] (by decide) "x" (by decide)⟩

end SchedParse
